import Mathlib

/-!
Verification of the `SpatialData` consistency core
(`src/spatialdata/_core/spatialdata.py` and `src/spatialdata/_io/io_zarr.py`).

The Python code is shallowly embedded: Python dicts become association
lists with Python-dict update semantics (updating an existing key keeps
its position, a fresh key is appended), Python sets over strings become
`List String` with membership semantics, raising an exception becomes
returning `Except`/`Option`, and in-place mutation becomes explicit state
passing.  Parts of the repository that the two source files call but whose
code is not part of the two files (the `Elements` registry classes, the
table-model helpers, the IO backing-file helpers) are modelled from the
specification and are marked as such in their doc comments.
-/

set_option autoImplicit false

namespace PyDict

variable {α : Type} {β : Type} [DecidableEq α]

/-- `d[k]` lookup on a Python dict (first matching entry; keys are unique
in any list produced by dict operations). -/
def get? : List (α × β) → α → Option β
  | [], _ => none
  | p :: rest, k => if p.1 = k then some p.2 else get? rest k

/-- Membership of a key in an association list, mirroring `k in d` on a
Python dict. -/
def hasKey (d : List (α × β)) (k : α) : Bool :=
  (get? d k).isSome

/-- `d[k] = v` on a Python dict: an existing key keeps its position and
gets the new value, a fresh key is appended at the end. -/
def setKey (d : List (α × β)) (k : α) (v : β) : List (α × β) :=
  if hasKey d k then d.map (fun p => if p.1 = k then (k, v) else p)
  else d ++ [(k, v)]

/-- `d.pop(k)` on a Python dict: the entry for `k` is removed. -/
def pop : List (α × β) → α → List (α × β)
  | [], _ => []
  | p :: rest, k => if p.1 = k then pop rest k else p :: pop rest k

/-- The list of keys of the dict. -/
def keys (d : List (α × β)) : List α :=
  d.map Prod.fst

@[simp] theorem get?_nil (k : α) : get? ([] : List (α × β)) k = none := rfl

@[simp] theorem get?_cons (p : α × β) (rest : List (α × β)) (k : α) :
    get? (p :: rest) k = if p.1 = k then some p.2 else get? rest k := rfl

@[simp] theorem pop_nil (k : α) : pop ([] : List (α × β)) k = [] := rfl

@[simp] theorem pop_cons (p : α × β) (rest : List (α × β)) (k : α) :
    pop (p :: rest) k = if p.1 = k then pop rest k else p :: pop rest k := rfl

theorem get?_eq_none_iff (d : List (α × β)) (k : α) :
    get? d k = none ↔ k ∉ keys d := by
  induction d with
  | nil => simp [keys]
  | cons p rest ih =>
    by_cases hp : p.1 = k
    · simp only [get?_cons, if_pos hp, keys, List.map_cons, List.mem_cons]
      constructor
      · intro hc; exact absurd hc (by simp)
      · intro hc; exact absurd (Or.inl hp.symm) hc
    · simp only [get?_cons, if_neg hp, keys, List.map_cons, List.mem_cons]
      rw [ih]
      constructor
      · intro hn
        rintro (hc | hc)
        · exact hp hc.symm
        · exact hn hc
      · intro hn hc
        exact hn (Or.inr hc)

theorem hasKey_iff_mem_keys (d : List (α × β)) (k : α) :
    hasKey d k = true ↔ k ∈ keys d := by
  rw [hasKey, Option.isSome_iff_ne_none, ne_eq, get?_eq_none_iff]
  simp

theorem setKey_of_not_hasKey (d : List (α × β)) (k : α) (v : β)
    (h : hasKey d k = false) : setKey d k v = d ++ [(k, v)] := by
  simp [setKey, h]

theorem mem_keys_pop (d : List (α × β)) (k a : α) :
    a ∈ keys (pop d k) ↔ a ∈ keys d ∧ a ≠ k := by
  induction d with
  | nil => simp [keys]
  | cons p rest ih =>
    by_cases hp : p.1 = k
    · rw [pop_cons, if_pos hp, ih]
      simp only [keys, List.map_cons, List.mem_cons]
      constructor
      · rintro ⟨h1, h2⟩; exact ⟨Or.inr h1, h2⟩
      · rintro ⟨h1 | h1, h2⟩
        · exact absurd (h1.trans hp) h2
        · exact ⟨h1, h2⟩
    · rw [pop_cons, if_neg hp]
      simp only [keys, List.map_cons, List.mem_cons]
      rw [show (List.map Prod.fst (pop rest k)) = keys (pop rest k) from rfl]
      rw [show (List.map Prod.fst rest) = keys rest from rfl]
      rw [ih]
      constructor
      · rintro (h1 | ⟨h1, h2⟩)
        · refine ⟨Or.inl h1, ?_⟩
          rintro rfl
          exact hp h1.symm
        · exact ⟨Or.inr h1, h2⟩
      · rintro ⟨h1 | h1, h2⟩
        · exact Or.inl h1
        · exact Or.inr ⟨h1, h2⟩

theorem get?_pop_of_ne (d : List (α × β)) (a k : α) (h : a ≠ k) :
    get? (pop d a) k = get? d k := by
  induction d with
  | nil => rfl
  | cons p rest ih =>
    by_cases hp : p.1 = a
    · have hk : ¬ p.1 = k := by rw [hp]; exact h
      rw [pop_cons, if_pos hp, get?_cons, if_neg hk, ih]
    · rw [pop_cons, if_neg hp, get?_cons, get?_cons]
      by_cases hpk : p.1 = k
      · rw [if_pos hpk, if_pos hpk]
      · rw [if_neg hpk, if_neg hpk, ih]

theorem get?_append (d e : List (α × β)) (k : α) :
    get? (d ++ e) k = ((get? d k).or (get? e k)) := by
  induction d with
  | nil => simp
  | cons p rest ih =>
    by_cases hp : p.1 = k
    · simp [hp]
    · simp [hp, ih]

theorem get?_append_right (d : List (α × β)) (k : α) (v : β)
    (h : hasKey d k = false) : get? (d ++ [(k, v)]) k = some v := by
  rw [get?_append]
  have : get? d k = none := by
    rw [get?_eq_none_iff]
    intro hm
    rw [← hasKey_iff_mem_keys] at hm
    exact absurd hm (by simp [h])
  simp [this]

theorem get?_append_left (d e : List (α × β)) (k : α)
    (h : hasKey d k = true) : get? (d ++ e) k = get? d k := by
  rw [get?_append]
  rw [hasKey, Option.isSome_iff_exists] at h
  rcases h with ⟨v, hv⟩
  simp [hv]

end PyDict

/-! ## Element registry model (claims C2 and C3)

The registry state of a `SpatialData` object: five kind-scoped mappings
(`_images`, `_labels`, `_points`, `_shapes`, `_tables`), each holding a
reference to a shared name set, plus the container attribute
`self._shared_keys`, itself a reference to one of those sets.  In Python
the sharing is by object reference; a kind setter re-binds the attribute
(`self._shared_keys = self._shared_keys - set(self._<kind>.keys())`),
creating a fresh set object from the set the ATTRIBUTE currently
references (the most recently rebound one), while the other four
registries keep referencing whatever set object they were built with.
The embedding makes the references explicit: a heap of name sets indexed
by `Nat`, each registry carrying the index of the set it references, and
the container carrying the index the attribute references.  Element
payloads are irrelevant to the name bookkeeping, so a registry stores
only its (insertion-ordered) name list.
-/

namespace Registry

inductive Kind where
  | images | labels | points | shapes | tables
deriving DecidableEq, Repr

/-- One kind-scoped mapping: its element names (insertion order) and the
heap index of the shared-name set it references. -/
structure Reg where
  names : List String
  ref : Nat
deriving DecidableEq, Repr

/-- The registry state of a `SpatialData` object: the five kind
mappings, the heap of shared-name-set objects, and the heap index the
container attribute `self._shared_keys` currently references. -/
structure SDState where
  images : Reg
  labels : Reg
  points : Reg
  shapes : Reg
  tables : Reg
  heap : List (List String)
  sharedRef : Nat
deriving DecidableEq, Repr

def SDState.reg (s : SDState) : Kind → Reg
  | .images => s.images
  | .labels => s.labels
  | .points => s.points
  | .shapes => s.shapes
  | .tables => s.tables

def SDState.setReg (s : SDState) (k : Kind) (r : Reg) : SDState :=
  match k with
  | .images => { s with images := r }
  | .labels => { s with labels := r }
  | .points => { s with points := r }
  | .shapes => { s with shapes := r }
  | .tables => { s with tables := r }

/-- The shared-name set referenced by kind `k` in state `s`. -/
def SDState.sharedOf (s : SDState) (k : Kind) : List String :=
  s.heap.getD (s.reg k).ref []

/-- The set the container attribute `self._shared_keys` references. -/
def SDState.attrShared (s : SDState) : List String :=
  s.heap.getD s.sharedRef []

/-- The state of `SpatialData.__init__` right after the five `Elements`
objects are constructed: all five registries are empty and reference the
single shared set object `self._shared_keys = set()`. -/
def initState : SDState :=
  { images := ⟨[], 0⟩, labels := ⟨[], 0⟩, points := ⟨[], 0⟩,
    shapes := ⟨[], 0⟩, tables := ⟨[], 0⟩, heap := [[]], sharedRef := 0 }

/-- The state after a successful insertion: the kind's mapping gains the
name and the shared set object the kind references gains the name. -/
def insertedState (s : SDState) (k : Kind) (name : String) : SDState :=
  { (s.setReg k ⟨(s.reg k).names ++ [name], (s.reg k).ref⟩) with
    heap := s.heap.set (s.reg k).ref (s.heap.getD (s.reg k).ref [] ++ [name]) }

/-- Modelled from the spec: `Elements.__setitem__` of
`spatialdata._core._elements` (the module is not among the source files;
only its callers are).  Per the spec (§4.1, §3), an insertion fails with a
name-collision error if the name is already in the shared name set the
registry references, and otherwise records the name in the mapping and
adds it to that shared set. -/
def insertElem (s : SDState) (k : Kind) (name : String) : Option SDState :=
  if name ∈ s.heap.getD (s.reg k).ref [] then none
  else some (insertedState s k name)

/-- One step of a sequence of insertions: on failure the raised exception
leaves the state as it was. -/
def stepInsert (s : SDState) (op : Kind × String) : SDState :=
  (insertElem s op.1 op.2).getD s

/-- A sequence of insertions applied from a starting state. -/
def runInserts (s : SDState) (ops : List (Kind × String)) : SDState :=
  ops.foldl stepInsert s

/-- All element names across the five kinds. -/
def SDState.allNames (s : SDState) : List String :=
  s.images.names ++ s.labels.names ++ s.points.names ++ s.shapes.names ++ s.tables.names

/-- The state right after a kind setter re-binds `self._shared_keys`
(source line 1336): the fresh set object is
`self._shared_keys - set(self._<kind>.keys())` — the minuend is the set
the container ATTRIBUTE currently references, not the set the
re-assigned kind's mapping references — stored as a new heap entry; the
attribute and the kind's fresh empty mapping both reference it, and the
other four mappings keep their old references. -/
def reassignedBase (s : SDState) (k : Kind) : SDState :=
  { (s.setReg k ⟨[], s.heap.length⟩) with
    heap := s.heap ++
      [(s.heap.getD s.sharedRef []).filter (fun n => ¬ n ∈ (s.reg k).names)],
    sharedRef := s.heap.length }

/-- The kind setters of the source (e.g. `SpatialData.images.setter`,
lines 1333–1339): re-bind `self._shared_keys` to the fresh set
`self._shared_keys - set(self._images.keys())` (a new object: the heap
grows by one entry), construct a fresh `Elements` mapping referencing the
new object, and insert the new items one by one. -/
def setKind (s : SDState) (k : Kind) (newNames : List String) : Option SDState :=
  newNames.foldlM (fun st n => insertElem st k n) (reassignedBase s k)

/-! Helper lemmas about the heap of shared-set objects. -/

theorem getD_concat_self {γ : Type} (l : List γ) (x d : γ) :
    (l ++ [x]).getD l.length d = x := by
  induction l with
  | nil => rfl
  | cons a t ih => exact ih

theorem set_concat_self {γ : Type} (l : List γ) (x y : γ) :
    (l ++ [x]).set l.length y = l ++ [y] := by
  induction l with
  | nil => rfl
  | cons a t ih => simp [List.set, ih]

theorem getD_append_left {γ : Type} (l m : List γ) (i : Nat) (d : γ)
    (h : i < l.length) : (l ++ m).getD i d = l.getD i d := by
  induction l generalizing i with
  | nil => simp at h
  | cons a t ih =>
    cases i with
    | zero => rfl
    | succ j =>
      have : j < t.length := by simpa using h
      simpa [List.getD] using ih j this

theorem set_append_left {γ : Type} (l m : List γ) (i : Nat) (y : γ)
    (h : i < l.length) : (l ++ m).set i y = l.set i y ++ m := by
  induction l generalizing i with
  | nil => simp at h
  | cons a t ih =>
    cases i with
    | zero => rfl
    | succ j =>
      have : j < t.length := by simpa using h
      simp [List.set, ih j this]

/-- Membership in `allNames` after one kind's name list gains one name. -/
theorem mem_allNames_after_insert (s : SDState) (k : Kind) (r : Nat)
    (m n : String) :
    n ∈ (s.setReg k ⟨(s.reg k).names ++ [m], r⟩).allNames ↔
      n ∈ s.allNames ∨ n = m := by
  cases k <;>
    · simp only [SDState.setReg, SDState.allNames, SDState.reg, List.mem_append,
        List.mem_singleton]
      tauto

/-- Invariant of states reachable by plain insertions from `initState`:
all five registries still reference the single original shared set, and
that set holds exactly the names registered across all kinds. -/
def Coherent (s : SDState) : Prop :=
  (∀ k, (s.reg k).ref = 0) ∧
  ∃ S, s.heap = [S] ∧ ∀ n, n ∈ S ↔ n ∈ s.allNames

theorem coherent_init : Coherent initState := by
  refine ⟨fun k => by cases k <;> rfl, [], rfl, ?_⟩
  intro n
  simp [initState, SDState.allNames]

/-- `allNames` of the successor state: the inserted name is added,
everything else is kept (the heap does not enter `allNames`). -/
theorem mem_allNames_insertedState (s : SDState) (k : Kind) (m n : String) :
    n ∈ (insertedState s k m).allNames ↔ n ∈ s.allNames ∨ n = m := by
  have : (insertedState s k m).allNames
      = (s.setReg k ⟨(s.reg k).names ++ [m], (s.reg k).ref⟩).allNames := by
    cases k <;> rfl
  rw [this]
  exact mem_allNames_after_insert s k (s.reg k).ref m n

theorem reg_insertedState (s : SDState) (k k' : Kind) (n : String) :
    (insertedState s k n).reg k'
      = if k' = k then ⟨(s.reg k).names ++ [n], (s.reg k).ref⟩
        else s.reg k' := by
  cases k <;> cases k' <;>
    simp [insertedState, SDState.setReg, SDState.reg]

theorem heap_insertedState (s : SDState) (k : Kind) (n : String) :
    (insertedState s k n).heap
      = s.heap.set (s.reg k).ref (s.heap.getD (s.reg k).ref [] ++ [n]) := by
  cases k <;> rfl

theorem sharedRef_insertedState (s : SDState) (k : Kind) (n : String) :
    (insertedState s k n).sharedRef = s.sharedRef := by
  cases k <;> rfl

theorem insertElem_eq_none_iff_of_coherent (s : SDState) (k : Kind)
    (n : String) (h : Coherent s) :
    insertElem s k n = none ↔ n ∈ s.allNames := by
  obtain ⟨href, S, hheap, hS⟩ := h
  rw [insertElem, href k, hheap]
  by_cases hn : n ∈ S
  · simp only [List.getD]
    simp [hn, (hS n).mp hn]
  · simp only [List.getD]
    simp [hn]
    rw [← hS n]
    exact hn

theorem coherent_insertElem (s s' : SDState) (k : Kind) (n : String)
    (h : Coherent s) (hins : insertElem s k n = some s') : Coherent s' := by
  obtain ⟨href, S, hheap, hS⟩ := h
  rw [insertElem] at hins
  by_cases hn : n ∈ s.heap.getD (s.reg k).ref []
  · rw [if_pos hn] at hins
    cases hins
  · rw [if_neg hn] at hins
    have hs' : s' = insertedState s k n := (Option.some.inj hins).symm
    subst hs'
    constructor
    · intro k'
      rw [reg_insertedState]
      by_cases hk : k' = k
      · rw [if_pos hk]
        exact href k
      · rw [if_neg hk]
        exact href k'
    · refine ⟨S ++ [n], ?_, ?_⟩
      · rw [heap_insertedState, href k, hheap]
        rfl
      · intro m
        rw [mem_allNames_insertedState]
        simp only [List.mem_append, List.mem_singleton]
        rw [hS m]

theorem coherent_stepInsert (s : SDState) (op : Kind × String)
    (h : Coherent s) : Coherent (stepInsert s op) := by
  unfold stepInsert
  cases hins : insertElem s op.1 op.2 with
  | none => simpa using h
  | some s' => simpa using coherent_insertElem s s' op.1 op.2 h hins

theorem coherent_runInserts (s : SDState) (ops : List (Kind × String))
    (h : Coherent s) : Coherent (runInserts s ops) := by
  induction ops generalizing s with
  | nil => simpa [runInserts] using h
  | cons op rest ih =>
    simpa [runInserts] using ih (stepInsert s op) (coherent_stepInsert s op h)

/-- A successful insertion records the inserted name. -/
theorem mem_allNames_of_insert_success (s s' : SDState) (k : Kind)
    (n : String) (hins : insertElem s k n = some s') : n ∈ s'.allNames := by
  rw [insertElem] at hins
  by_cases hn : n ∈ s.heap.getD (s.reg k).ref []
  · rw [if_pos hn] at hins
    cases hins
  · rw [if_neg hn] at hins
    have hs' : s' = insertedState s k n := (Option.some.inj hins).symm
    subst hs'
    rw [mem_allNames_insertedState]
    exact Or.inr rfl

/-- Registered names survive any later insertion attempt. -/
theorem mem_allNames_stepInsert (s : SDState) (op : Kind × String)
    (n : String) (h : n ∈ s.allNames) : n ∈ (stepInsert s op).allNames := by
  unfold stepInsert
  cases hins : insertElem s op.1 op.2 with
  | none => simpa using h
  | some s' =>
    simp only [Option.getD_some]
    rw [insertElem] at hins
    by_cases hn : op.2 ∈ s.heap.getD (s.reg op.1).ref []
    · rw [if_pos hn] at hins
      cases hins
    · rw [if_neg hn] at hins
      have hs' : s' = insertedState s op.1 op.2 := (Option.some.inj hins).symm
      subst hs'
      rw [mem_allNames_insertedState]
      exact Or.inl h

theorem mem_allNames_runInserts (s : SDState) (ops : List (Kind × String))
    (n : String) (h : n ∈ s.allNames) : n ∈ (runInserts s ops).allNames := by
  induction ops generalizing s with
  | nil => simpa [runInserts] using h
  | cons op rest ih =>
    simpa [runInserts] using ih (stepInsert s op) (mem_allNames_stepInsert s op n h)

theorem reg_reassignedBase (s : SDState) (k k' : Kind) :
    (reassignedBase s k).reg k'
      = if k' = k then ⟨[], s.heap.length⟩ else s.reg k' := by
  cases k <;> cases k' <;>
    simp [reassignedBase, SDState.setReg, SDState.reg]

theorem heap_reassignedBase (s : SDState) (k : Kind) :
    (reassignedBase s k).heap
      = s.heap ++
        [(s.heap.getD s.sharedRef []).filter
          (fun n => ¬ n ∈ (s.reg k).names)] := by
  cases k <;> rfl

theorem sharedRef_reassignedBase (s : SDState) (k : Kind) :
    (reassignedBase s k).sharedRef = s.heap.length := by
  cases k <;> rfl

/-- A characterization of the fold of insertions a kind setter runs:
the kind's mapping accumulates the new names and the new shared set
object (last heap entry) accumulates them too; nothing else moves. -/
theorem foldlM_insert_into_last (k : Kind) (ns : List String) :
    ∀ (base : SDState) (heap0 : List (List String)) (cur : List String)
      (s' : SDState),
      (base.reg k).ref = heap0.length → base.heap = heap0 ++ [cur] →
      ns.foldlM (fun st m => insertElem st k m) base = some s' →
      (∀ k', k' ≠ k → s'.reg k' = base.reg k') ∧
      s'.reg k = ⟨(base.reg k).names ++ ns, heap0.length⟩ ∧
      s'.heap = heap0 ++ [cur ++ ns] ∧
      s'.sharedRef = base.sharedRef := by
  induction ns with
  | nil =>
    intro base heap0 cur s' hreg hheap hfold
    simp only [List.foldlM] at hfold
    have hb : base = s' := Option.some.inj hfold
    subst hb
    refine ⟨fun k' _ => rfl, ?_, by simpa using hheap, rfl⟩
    rw [← hreg]
    simp
  | cons m rest ih =>
    intro base heap0 cur s' hreg hheap hfold
    simp only [List.foldlM] at hfold
    rw [insertElem] at hfold
    have hcur : base.heap.getD (base.reg k).ref [] = cur := by
      rw [hheap, hreg]
      exact getD_concat_self heap0 cur []
    by_cases hm : m ∈ base.heap.getD (base.reg k).ref []
    · rw [if_pos hm] at hfold
      simp at hfold
    · rw [if_neg hm] at hfold
      have hreg' : ((insertedState base k m).reg k).ref = heap0.length := by
        rw [reg_insertedState, if_pos rfl]
        exact hreg
      have hheap' : (insertedState base k m).heap = heap0 ++ [cur ++ [m]] := by
        rw [heap_insertedState, hcur, hheap, hreg]
        exact set_concat_self heap0 cur (cur ++ [m])
      obtain ⟨hother, hk, hheap'', hsref⟩ :=
        ih (insertedState base k m) heap0 (cur ++ [m]) s' hreg' hheap' hfold
      refine ⟨?_, ?_, ?_, ?_⟩
      · intro k' hk'
        rw [hother k' hk', reg_insertedState, if_neg hk']
      · rw [hk, reg_insertedState, if_pos rfl]
        simp
      · rw [hheap'']
        simp
      · rw [hsref, sharedRef_insertedState]

/-- A characterization of `setKind` (the source's kind setters): on
success the re-assigned kind holds exactly the new names and references —
together with the re-bound container attribute — a brand-new shared set
built from the set the attribute referenced before the call minus the
kind's old names plus the new names; the other four kinds and the set
object they reference are untouched — so a later insertion into another
kind reusing a new name succeeds whenever that name is absent from that
kind's (stale) referenced set. -/
theorem setKind_characterization (s : SDState) (k : Kind) (ns : List String)
    (s' : SDState)
    (hvalid : ∀ k', (s.reg k').ref < s.heap.length)
    (h : setKind s k ns = some s') :
    (∀ k', k' ≠ k → s'.reg k' = s.reg k') ∧
    (∀ k', k' ≠ k → s'.sharedOf k' = s.sharedOf k') ∧
    s'.reg k = ⟨ns, s.heap.length⟩ ∧
    s'.sharedRef = s.heap.length ∧
    (∀ n, n ∈ s'.sharedOf k ↔
      (n ∈ s.attrShared ∧ n ∉ (s.reg k).names) ∨ n ∈ ns) ∧
    (∀ k' n, k' ≠ k → n ∈ ns → n ∉ s.sharedOf k' →
      (insertElem s' k' n).isSome) := by
  unfold setKind at h
  have hreg : ((reassignedBase s k).reg k).ref = s.heap.length := by
    rw [reg_reassignedBase, if_pos rfl]
  obtain ⟨hother, hk, hheap, hsref⟩ :=
    foldlM_insert_into_last k ns (reassignedBase s k) s.heap
      ((s.heap.getD s.sharedRef []).filter (fun n => ¬ n ∈ (s.reg k).names))
      s' hreg (heap_reassignedBase s k) h
  have hregother : ∀ k', k' ≠ k → s'.reg k' = s.reg k' := by
    intro k' hk'
    rw [hother k' hk', reg_reassignedBase, if_neg hk']
  have hsharedother : ∀ k', k' ≠ k → s'.sharedOf k' = s.sharedOf k' := by
    intro k' hk'
    unfold SDState.sharedOf
    rw [hregother k' hk', hheap]
    exact getD_append_left s.heap _ (s.reg k').ref [] (hvalid k')
  have hregk : s'.reg k = ⟨ns, s.heap.length⟩ := by
    rw [hk, reg_reassignedBase, if_pos rfl]
    simp
  have hsrefk : s'.sharedRef = s.heap.length := by
    rw [hsref, sharedRef_reassignedBase]
  refine ⟨hregother, hsharedother, hregk, hsrefk, ?_, ?_⟩
  · intro n
    unfold SDState.sharedOf
    rw [hregk, hheap]
    simp only
    rw [getD_concat_self]
    simp only [List.mem_append, List.mem_filter]
    unfold SDState.attrShared
    constructor
    · rintro (⟨h1, h2⟩ | h1)
      · exact Or.inl ⟨h1, by simpa using h2⟩
      · exact Or.inr h1
    · rintro (⟨h1, h2⟩ | h1)
      · exact Or.inl ⟨h1, by simpa using h2⟩
      · exact Or.inr h1
  · intro k' n hk' hns hn
    rw [insertElem]
    have : s'.heap.getD (s'.reg k').ref [] = s.sharedOf k' := by
      rw [← hsharedother k' hk']
      rfl
    rw [this, if_neg hn]
    rfl

end Registry

/-- C2.  Name uniqueness: starting from a freshly constructed container,
for every sequence of insertions across the five kinds, once an insertion
of name `n` has succeeded, any later insertion of `n` (into any kind)
raises a name-collision error (`insertElem … = none`) and the state after
the failed attempt is exactly the state before it, so no two insertions
with the same name both succeed. -/
theorem C2_insert_name_uniqueness
    (pre mid : List (Registry.Kind × String)) (k k' : Registry.Kind)
    (n : String)
    (hfirst : (Registry.insertElem (Registry.runInserts Registry.initState pre)
      k n).isSome) :
    Registry.insertElem
      (Registry.runInserts
        (Registry.stepInsert (Registry.runInserts Registry.initState pre) (k, n))
        mid) k' n = none ∧
    Registry.stepInsert
      (Registry.runInserts
        (Registry.stepInsert (Registry.runInserts Registry.initState pre) (k, n))
        mid) (k', n)
      = Registry.runInserts
          (Registry.stepInsert (Registry.runInserts Registry.initState pre) (k, n))
          mid := by
  obtain ⟨s1, hs1⟩ := Option.isSome_iff_exists.mp hfirst
  have hstep : Registry.stepInsert (Registry.runInserts Registry.initState pre)
      (k, n) = s1 := by
    simp [Registry.stepInsert, hs1]
  have hcoh0 : Registry.Coherent (Registry.runInserts Registry.initState pre) :=
    Registry.coherent_runInserts _ pre Registry.coherent_init
  have hcoh1 : Registry.Coherent s1 :=
    Registry.coherent_insertElem _ s1 k n hcoh0 hs1
  have hmem1 : n ∈ s1.allNames :=
    Registry.mem_allNames_of_insert_success _ s1 k n hs1
  rw [hstep]
  have hcoh2 : Registry.Coherent (Registry.runInserts s1 mid) :=
    Registry.coherent_runInserts s1 mid hcoh1
  have hmem2 : n ∈ (Registry.runInserts s1 mid).allNames :=
    Registry.mem_allNames_runInserts s1 mid n hmem1
  have hnone :=
    (Registry.insertElem_eq_none_iff_of_coherent _ k' n hcoh2).mpr hmem2
  exact ⟨hnone, by simp [Registry.stepInsert, hnone]⟩

/-- Witness for C2 at a concrete input: "a" is inserted into images, "b"
into labels, and a second insertion of "a" into tables fails and leaves
the state unchanged. -/
theorem C2_insert_name_uniqueness_witness :
    Registry.insertElem
      (Registry.runInserts
        (Registry.stepInsert (Registry.runInserts Registry.initState [])
          (.images, "a"))
        [(.labels, "b")]) .tables "a" = none ∧
    Registry.stepInsert
      (Registry.runInserts
        (Registry.stepInsert (Registry.runInserts Registry.initState [])
          (.images, "a"))
        [(.labels, "b")]) (.tables, "a")
      = Registry.runInserts
          (Registry.stepInsert (Registry.runInserts Registry.initState [])
            (.images, "a"))
          [(.labels, "b")] :=
  C2_insert_name_uniqueness [] [(.labels, "b")] .images .tables "a" (by decide)

/-- After `images = {"a"}` then `labels = {"b"}` the attribute chain
gives labels the set `{"a", "b"}` (the minuend of each setter's
difference is the set the container attribute currently references), so
a later insertion of "a" into labels DOES raise a collision — as the
Python does. -/
theorem setKind_attr_chain :
    Registry.setKind Registry.initState .images ["a"]
      = some ⟨⟨["a"], 1⟩, ⟨[], 0⟩, ⟨[], 0⟩, ⟨[], 0⟩, ⟨[], 0⟩,
          [[], ["a"]], 1⟩ ∧
    Registry.setKind
      ⟨⟨["a"], 1⟩, ⟨[], 0⟩, ⟨[], 0⟩, ⟨[], 0⟩, ⟨[], 0⟩, [[], ["a"]], 1⟩
      .labels ["b"]
      = some ⟨⟨["a"], 1⟩, ⟨["b"], 2⟩, ⟨[], 0⟩, ⟨[], 0⟩, ⟨[], 0⟩,
          [[], ["a"], ["a", "b"]], 2⟩ ∧
    Registry.insertElem
      ⟨⟨["a"], 1⟩, ⟨["b"], 2⟩, ⟨[], 0⟩, ⟨[], 0⟩, ⟨[], 0⟩,
        [[], ["a"], ["a", "b"]], 2⟩ .labels "a"
      = none :=
  ⟨rfl, rfl, rfl⟩

/-- C3, counterexample.  On an empty container, assigning `images = {"a"}`
through the images setter and then inserting name "a" into labels does NOT
raise a name collision: the insertion succeeds (the labels registry still
references the stale pre-setter shared set, which does not contain "a"),
leaving both an image and a label named "a". -/
theorem C3_counterexample :
    Registry.setKind Registry.initState .images ["a"]
      = some ⟨⟨["a"], 1⟩, ⟨[], 0⟩, ⟨[], 0⟩, ⟨[], 0⟩, ⟨[], 0⟩,
          [[], ["a"]], 1⟩ ∧
    Registry.insertElem
      ⟨⟨["a"], 1⟩, ⟨[], 0⟩, ⟨[], 0⟩, ⟨[], 0⟩, ⟨[], 0⟩, [[], ["a"]], 1⟩
      .labels "a"
      = some ⟨⟨["a"], 1⟩, ⟨["a"], 0⟩, ⟨[], 0⟩, ⟨[], 0⟩, ⟨[], 0⟩,
          [["a"], ["a"]], 1⟩ := by
  exact ⟨rfl, rfl⟩

/-- C3, amended.  Kind-setter frame property: assigning a whole new
mapping to one kind re-binds the container attribute `self._shared_keys`
to a brand-new shared set — the set the attribute referenced before the
call (the most recently rebound one) minus that kind's old names plus the
new names — referenced only by the attribute and the re-assigned kind,
and leaves the other four kind mappings and the shared-set object each of
them references untouched.  Because the other kinds keep their stale
sets, a subsequent insertion into any other kind using a name held by the
newly assigned kind SUCCEEDS whenever that name is not in that kind's
stale set (the cross-kind uniqueness invariant is not re-enforced after a
bulk re-assignment). -/
theorem C3_kind_setter_frame (s : Registry.SDState) (k : Registry.Kind)
    (ns : List String) (s' : Registry.SDState)
    (hvalid : ∀ k', (s.reg k').ref < s.heap.length)
    (h : Registry.setKind s k ns = some s') :
    (∀ k', k' ≠ k → s'.reg k' = s.reg k') ∧
    (∀ k', k' ≠ k → s'.sharedOf k' = s.sharedOf k') ∧
    s'.reg k = ⟨ns, s.heap.length⟩ ∧
    s'.sharedRef = s.heap.length ∧
    (∀ n, n ∈ s'.sharedOf k ↔
      (n ∈ s.attrShared ∧ n ∉ (s.reg k).names) ∨ n ∈ ns) ∧
    (∀ k' n, k' ≠ k → n ∈ ns → n ∉ s.sharedOf k' →
      (Registry.insertElem s' k' n).isSome) :=
  Registry.setKind_characterization s k ns s' hvalid h

/-- Witness for C3's amended theorem at a concrete input: after
`images = {"a"}` on an empty container, inserting "a" into labels
succeeds. -/
theorem C3_kind_setter_frame_witness :
    (Registry.insertElem
      ⟨⟨["a"], 1⟩, ⟨[], 0⟩, ⟨[], 0⟩, ⟨[], 0⟩, ⟨[], 0⟩, [[], ["a"]], 1⟩
      .labels "a").isSome :=
  (C3_kind_setter_frame Registry.initState .images ["a"]
      ⟨⟨["a"], 1⟩, ⟨[], 0⟩, ⟨[], 0⟩, ⟨[], 0⟩, ⟨[], 0⟩, [[], ["a"]], 1⟩
      (fun k' => by cases k' <;> decide) rfl).2.2.2.2.2
    .labels "a" (by decide) (by decide) (by decide)

/-! ## Coordinate-system rename (claims C4 and C10)

`SpatialData.rename_coordinate_systems` (lines 719–773): the validity
check over the container-wide coordinate-system list, then for each
spatial element the two-phase rename of its transformation ledger
(phase 1 moves each renamed entry to a temporary key `new + suffix` with
a random 8-hex-character suffix; phase 2 strips the suffixes).

Coordinate-system names are embedded as `List Char` so that the slicing
`cs_with_suffix[:-8]` is `take (length - 8)`.  A transformation ledger is
an association list with Python dict semantics.  The random suffix draws
are a parameter: a list holding one (potential) draw per rename pair. -/

namespace Rename

/-- `cs_with_suffix[:-8]`: drop the last 8 characters. -/
def stripSuffix (k : List Char) : List Char :=
  k.take (k.length - 8)

/-- Phase 1 of the per-element rename (lines 754–760): for each
`(old, new)` pair whose `old` is a key of the current ledger, pop the
entry and re-insert it under `new ++ suffix`, recording the suffixed name
in `suffixes_to_replace`. -/
def phase1Go {T : Type} :
    List (List Char × T) → List (List Char) → List (List Char × List Char) →
    List (List Char) → List (List Char × T) × List (List Char)
  | cur, sufs, [], _ => (cur, sufs)
  | cur, sufs, (o, n) :: rest, σs =>
    match PyDict.get? cur o with
    | none => phase1Go cur sufs rest σs.tail
    | some v =>
      phase1Go (PyDict.setKey (PyDict.pop cur o) (n ++ σs.headD []) v)
        (List.insert (n ++ σs.headD []) sufs) rest σs.tail

/-- Phase 2 of the per-element rename (lines 762–770): iterate the
suffixed ledger building `new_transformations`, stripping the suffix of
every key found in `suffixes_to_replace` (and removing it from the set). -/
def phase2Go {T : Type} :
    List (List Char × T) → List (List Char × T) → List (List Char) →
    List (List Char × T) × List (List Char)
  | acc, [], sufs => (acc, sufs)
  | acc, (k, v) :: rest, sufs =>
    if k ∈ sufs then
      phase2Go (PyDict.setKey acc (stripSuffix k) v) rest (sufs.erase k)
    else
      phase2Go (PyDict.setKey acc k v) rest sufs

/-- The full two-phase rename of one element's transformation ledger. -/
def renameLedger {T : Type} (d : List (List Char × T))
    (ren : List (List Char × List Char)) (σs : List (List Char)) :
    List (List Char × T) :=
  (phase2Go [] (phase1Go d [] ren σs).1 (phase1Go d [] ren σs).2).1

/-- `SpatialData.coordinate_systems` (lines 1381–1391): the union over
every spatial element of the keys of its transformation ledger (only
membership in this list is consumed by the rename check). -/
def coordinateSystems {T : Type} (es : List (List (List Char × T))) :
    List (List Char) :=
  (es.map (fun d => PyDict.keys d)).flatten

/-- The validity check of `rename_coordinate_systems` (lines 736–746):
each `old` must be an existing coordinate system, and each `new` must not
collide with a name in the running `new_names` list (the systems not
renamed away plus the targets appended so far). -/
def renameCheckGo (oldNames : List (List Char)) :
    List (List Char) → List (List Char × List Char) → Option String
  | _, [] => none
  | newNames, (o, n) :: rest =>
    if ¬ o ∈ oldNames then some "Coordinate system does not exist."
    else if n ∈ newNames then
      some "It is not allowed to rename a coordinate system if the new name already exists."
    else renameCheckGo oldNames (newNames ++ [n]) rest

/-- `SpatialData.rename_coordinate_systems` (lines 719–773): validity
check, then the two-phase rename of every spatial element's ledger,
with `σss` providing each element's (potential) random suffix draws. -/
def renameCoordinateSystems {T : Type} (es : List (List (List Char × T)))
    (ren : List (List Char × List Char)) (σss : List (List (List Char))) :
    Except String (List (List (List Char × T))) :=
  match renameCheckGo (coordinateSystems es)
      ((coordinateSystems es).filter (fun c => ¬ c ∈ ren.map Prod.fst)) ren with
  | some e => .error e
  | none => .ok ((es.zip σss).map (fun q => renameLedger q.1 ren q.2))

/-- The suffixed temporary names, one per rename pair. -/
def sfxList (ren : List (List Char × List Char)) (σs : List (List Char)) :
    List (List Char) :=
  (ren.zip σs).map (fun q => q.1.2 ++ q.2)

/-- The suffixed temporary names of the pairs present in ledger `d`. -/
def presentSfx {T : Type} (d : List (List Char × T))
    (ren : List (List Char × List Char)) (σs : List (List Char)) :
    List (List Char) :=
  ((ren.zip σs).filter
      (fun q => (PyDict.get? d q.1.1).isSome)).map (fun q => q.1.2 ++ q.2)

/-- The suffix draws are usable: one 8-character draw per pair, the
suffixed names pairwise distinct and colliding with neither the ledger's
keys nor the names being renamed (the collision-resistance the source
gets from 128 random bytes). -/
def FreshSuffixes {T : Type} (d : List (List Char × T))
    (ren : List (List Char × List Char)) (σs : List (List Char)) : Prop :=
  σs.length = ren.length ∧
  (∀ s ∈ σs, s.length = 8) ∧
  (sfxList ren σs).Nodup ∧
  (∀ x ∈ sfxList ren σs, x ∉ PyDict.keys d ∧ x ∉ ren.map Prod.fst)

instance freshSuffixesDecidable {T : Type} (d : List (List Char × T))
    (ren : List (List Char × List Char)) (σs : List (List Char)) :
    Decidable (FreshSuffixes d ren σs) := by
  unfold FreshSuffixes
  infer_instance

/-- The σ-free normal form of the per-element rename: the entries whose
key is not renamed, in order, followed by one entry `(new, d[old])` per
rename pair whose `old` is present, in rename order. -/
def pureRenameLedger {T : Type} (ren : List (List Char × List Char))
    (d : List (List Char × T)) : List (List Char × T) :=
  d.filter (fun p => ¬ p.1 ∈ ren.map Prod.fst) ++
    ren.filterMap (fun pr => (PyDict.get? d pr.1).map (fun v => (pr.2, v)))

theorem stripSuffix_append (n s : List Char) (h : s.length = 8) :
    stripSuffix (n ++ s) = n := by
  unfold stripSuffix
  rw [List.length_append, h, Nat.add_sub_cancel]
  exact List.take_left n s

theorem hasKey_eq_false_of_not_mem {α β : Type} [DecidableEq α]
    (d : List (α × β)) (k : α) (h : k ∉ PyDict.keys d) :
    PyDict.hasKey d k = false := by
  have hn : PyDict.get? d k = none := (PyDict.get?_eq_none_iff d k).mpr h
  rw [PyDict.hasKey, hn]
  rfl

theorem setKey_append_of_not_mem {α β : Type} [DecidableEq α]
    (d : List (α × β)) (k : α) (v : β) (h : k ∉ PyDict.keys d) :
    PyDict.setKey d k v = d ++ [(k, v)] :=
  PyDict.setKey_of_not_hasKey d k v (hasKey_eq_false_of_not_mem d k h)

theorem keys_pop_eq_filter {α β : Type} [DecidableEq α]
    (d : List (α × β)) (k : α) :
    PyDict.keys (PyDict.pop d k) = (PyDict.keys d).filter (fun x => ¬ x = k) := by
  induction d with
  | nil => rfl
  | cons p rest ih =>
    by_cases hp : p.1 = k
    · simp [PyDict.keys, PyDict.pop, hp] at ih ⊢
      simpa [PyDict.keys] using ih
    · simp [PyDict.keys, PyDict.pop, hp] at ih ⊢
      simpa [PyDict.keys] using ih

theorem keys_append {α β : Type} (d e : List (α × β)) :
    PyDict.keys (d ++ e) = PyDict.keys d ++ PyDict.keys e := by
  simp [PyDict.keys]

theorem get?_isSome_iff_mem {α β : Type} [DecidableEq α]
    (d : List (α × β)) (k : α) :
    (PyDict.get? d k).isSome = true ↔ k ∈ PyDict.keys d := by
  rw [Option.isSome_iff_ne_none, ne_eq, PyDict.get?_eq_none_iff]
  simp

theorem get?_singleton_of_ne {α β : Type} [DecidableEq α]
    (k a : α) (v : β) (h : ¬ a = k) : PyDict.get? [(a, v)] k = none := by
  simp [PyDict.get?, h]

/-- Popping `o` and then dropping the keys in `olds` is dropping the keys
in `o :: olds`. -/
theorem filter_pop_cons {β : Type}
    (cur : List (List Char × β)) (o : List Char) (olds : List (List Char)) :
    (PyDict.pop cur o).filter (fun p => ¬ p.1 ∈ olds)
      = cur.filter (fun p => ¬ p.1 ∈ o :: olds) := by
  induction cur with
  | nil => rfl
  | cons p cs ihc =>
    by_cases hpo : p.1 = o
    · rw [PyDict.pop_cons, if_pos hpo, ihc, List.filter_cons,
        if_neg (by simp [hpo])]
    · rw [PyDict.pop_cons, if_neg hpo]
      by_cases hm : p.1 ∈ olds
      · simp only [List.filter_cons]
        rw [if_neg (by simpa using hm), if_neg (by simp [hm]), ihc]
      · simp only [List.filter_cons]
        rw [if_pos (by simpa using hm),
          if_pos (by simp [hm]; intro hc; exact hpo hc), ihc]

/-- Phase 1 in closed form: the ledger keeps the entries whose key is not
renamed and gains, at the end and in rename order, a suffixed entry per
present pair; the suffix set accumulates exactly the present suffixed
names. -/
theorem phase1Go_spec {T : Type} :
    ∀ (ren : List (List Char × List Char)) (σs : List (List Char))
      (cur : List (List Char × T)) (sufs : List (List Char)),
      σs.length = ren.length →
      (PyDict.keys cur).Nodup →
      (ren.map Prod.fst).Nodup →
      (sfxList ren σs).Nodup →
      (∀ x ∈ sfxList ren σs, x ∉ PyDict.keys cur) →
      (∀ x ∈ sfxList ren σs, x ∉ ren.map Prod.fst) →
      (∀ x ∈ sfxList ren σs, x ∉ sufs) →
      phase1Go cur sufs ren σs =
        (cur.filter (fun p => ¬ p.1 ∈ ren.map Prod.fst) ++
          (ren.zip σs).filterMap
            (fun q => (PyDict.get? cur q.1.1).map (fun v => (q.1.2 ++ q.2, v))),
         (presentSfx cur ren σs).reverse ++ sufs) := by
  intro ren
  induction ren with
  | nil =>
    intro σs cur sufs _ _ _ _ _ _ _
    simp [phase1Go, presentSfx, sfxList]
  | cons pr rest ih =>
    intro σs cur sufs hlen hknd holds hsfxnd hsfxcur hsfxold hsfxsufs
    obtain ⟨o, n⟩ := pr
    cases σs with
    | nil => simp at hlen
    | cons s σs' =>
      have hlen' : σs'.length = rest.length := by simpa using hlen
      have hsfxcons : sfxList ((o, n) :: rest) (s :: σs')
          = (n ++ s) :: sfxList rest σs' := rfl
      rw [hsfxcons] at hsfxnd hsfxcur hsfxold hsfxsufs
      have holdnd : o ∉ rest.map Prod.fst ∧ (rest.map Prod.fst).Nodup := by
        simpa using holds
      cases hget : PyDict.get? cur o with
      | none =>
        have honotmem : o ∉ PyDict.keys cur := (PyDict.get?_eq_none_iff cur o).mp hget
        have hrec := ih σs' cur sufs hlen' hknd holdnd.2 hsfxnd.of_cons
          (fun x hx => hsfxcur x (List.mem_cons_of_mem _ hx))
          (fun x hx => by
            have := hsfxold x (List.mem_cons_of_mem _ hx)
            simp only [List.map_cons, List.mem_cons] at this
            intro hc
            exact this (Or.inr hc))
          (fun x hx => hsfxsufs x (List.mem_cons_of_mem _ hx))
        show phase1Go cur sufs ((o, n) :: rest) (s :: σs') = _
        rw [phase1Go, hget]
        simp only [List.tail_cons]
        rw [hrec]
        have hfiltereq : cur.filter (fun p => ¬ p.1 ∈ rest.map Prod.fst)
            = cur.filter (fun p => ¬ p.1 ∈ ((o, n) :: rest).map Prod.fst) := by
          apply List.filter_congr
          intro x hx
          have hxo : ¬ x.1 = o := by
            intro hc
            exact honotmem (hc ▸ List.mem_map_of_mem Prod.fst hx)
          simp [hxo]
        have hpseq : presentSfx cur ((o, n) :: rest) (s :: σs')
            = presentSfx cur rest σs' := by
          unfold presentSfx
          rw [List.zip_cons_cons, List.filter_cons]
          simp [hget]
        rw [hpseq, hfiltereq]
        rw [List.zip_cons_cons, List.filterMap_cons]
        simp [hget]
      | some v =>
        have hnsmem : (n ++ s) ∉ PyDict.keys cur :=
          hsfxcur (n ++ s) (List.mem_cons_self _ _)
        have hnsold : (n ++ s) ∉ ((o, n) :: rest).map Prod.fst := by
          have := hsfxold (n ++ s) (List.mem_cons_self _ _)
          simpa using this
        have hnso : ¬ (n ++ s) = o := by
          intro hc
          exact hnsold (by simp [hc])
        have hnssufs : (n ++ s) ∉ sufs :=
          hsfxsufs (n ++ s) (List.mem_cons_self _ _)
        have hnspop : (n ++ s) ∉ PyDict.keys (PyDict.pop cur o) := by
          rw [PyDict.mem_keys_pop]
          intro hc
          exact hnsmem hc.1
        have hcur' : PyDict.setKey (PyDict.pop cur o) (n ++ s) v
            = PyDict.pop cur o ++ [(n ++ s, v)] :=
          setKey_append_of_not_mem _ _ _ hnspop
        have hkeyspop : (PyDict.keys (PyDict.pop cur o)).Nodup := by
          rw [keys_pop_eq_filter]
          exact hknd.filter _
        have hknd' : (PyDict.keys (PyDict.pop cur o ++ [(n ++ s, v)])).Nodup := by
          rw [keys_append]
          apply List.Nodup.append hkeyspop (List.nodup_singleton _)
          intro x hx
          simp only [PyDict.keys, List.map_cons, List.map_nil, List.mem_singleton]
          intro hc
          subst hc
          exact hnspop hx
        have hinsert : List.insert (n ++ s) sufs = (n ++ s) :: sufs :=
          List.insert_of_not_mem hnssufs
        -- get? on the updated ledger agrees with get? on the old ledger
        -- for every key other than the popped old and the suffixed name
        have hget' : ∀ a, ¬ a = (n ++ s) → ¬ o = a →
            PyDict.get? (PyDict.pop cur o ++ [(n ++ s, v)]) a = PyDict.get? cur a := by
          intro a ha hoa
          rw [PyDict.get?_append, get?_singleton_of_ne _ _ _ (fun hc => ha hc.symm),
            Option.or_none, PyDict.get?_pop_of_ne cur o a hoa]
        have hrec := ih σs' (PyDict.pop cur o ++ [(n ++ s, v)]) ((n ++ s) :: sufs)
          hlen' hknd' holdnd.2 hsfxnd.of_cons
          (fun x hx => by
            rw [keys_append]
            simp only [List.mem_append, PyDict.keys, List.map_cons, List.map_nil,
              List.mem_singleton]
            rintro (hc | hc)
            · exact hsfxcur x (List.mem_cons_of_mem _ hx)
                ((PyDict.mem_keys_pop cur o x).mp hc).1
            · rw [hc] at hx
              exact (List.nodup_cons.mp hsfxnd).1 hx)
          (fun x hx => by
            have := hsfxold x (List.mem_cons_of_mem _ hx)
            simp only [List.map_cons, List.mem_cons] at this
            intro hc
            exact this (Or.inr hc))
          (fun x hx => by
            simp only [List.mem_cons]
            rintro (hc | hc)
            · rw [hc] at hx
              exact (List.nodup_cons.mp hsfxnd).1 hx
            · exact hsfxsufs x (List.mem_cons_of_mem _ hx) hc)
        have hfrest :
            (rest.zip σs').filterMap
                (fun q => (PyDict.get? (PyDict.pop cur o ++ [(n ++ s, v)]) q.1.1).map
                  (fun w => (q.1.2 ++ q.2, w)))
              = (rest.zip σs').filterMap
                  (fun q => (PyDict.get? cur q.1.1).map (fun w => (q.1.2 ++ q.2, w))) := by
          apply List.filterMap_congr
          intro q hq
          have hq1 : q.1 ∈ rest := (List.of_mem_zip hq).1
          have hq11 : q.1.1 ∈ rest.map Prod.fst := List.mem_map_of_mem Prod.fst hq1
          have h1 : ¬ q.1.1 = (n ++ s) := by
            intro hc
            apply hnsold
            simp only [List.map_cons, List.mem_cons]
            right
            rw [← hc]
            exact hq11
          have h2 : ¬ o = q.1.1 := by
            intro hc
            apply holdnd.1
            rw [hc]
            exact hq11
          rw [hget' q.1.1 h1 h2]
        have hpsfx :
            presentSfx (PyDict.pop cur o ++ [(n ++ s, v)]) rest σs'
              = presentSfx cur rest σs' := by
          unfold presentSfx
          congr 1
          apply List.filter_congr
          intro q hq
          have hq1 : q.1 ∈ rest := (List.of_mem_zip hq).1
          have hq11 : q.1.1 ∈ rest.map Prod.fst := List.mem_map_of_mem Prod.fst hq1
          have h1 : ¬ q.1.1 = (n ++ s) := by
            intro hc
            apply hnsold
            simp only [List.map_cons, List.mem_cons]
            right
            rw [← hc]
            exact hq11
          have h2 : ¬ o = q.1.1 := by
            intro hc
            apply holdnd.1
            rw [hc]
            exact hq11
          rw [hget' q.1.1 h1 h2]
        have hpscons : presentSfx cur ((o, n) :: rest) (s :: σs')
            = (n ++ s) :: presentSfx cur rest σs' := by
          unfold presentSfx
          rw [List.zip_cons_cons, List.filter_cons]
          simp [hget]
        show phase1Go cur sufs ((o, n) :: rest) (s :: σs') = _
        rw [phase1Go, hget]
        simp only [List.tail_cons, List.headD_cons]
        rw [hcur', hinsert, hrec, hfrest, hpsfx]
        rw [List.filter_append, filter_pop_cons cur o (rest.map Prod.fst)]
        have hnsfilter : [((n ++ s : List Char), v)].filter
            (fun p => ¬ p.1 ∈ rest.map Prod.fst) = [(n ++ s, v)] := by
          have : (n ++ s) ∉ rest.map Prod.fst := by
            intro hc
            apply hnsold
            simp only [List.map_cons, List.mem_cons]
            exact Or.inr hc
          simp [this]
        rw [hnsfilter, hpscons]
        congr 1
        · rw [List.zip_cons_cons, List.filterMap_cons, hget]
          simp [List.append_assoc]
        · rw [List.reverse_cons, List.append_assoc]
          rfl

/-- Phase 2 in closed form: every entry is copied in order, its key
stripped exactly when it is one of the temporary suffixed names. -/
theorem phase2Go_spec {T : Type} :
    ∀ (entries : List (List Char × T)) (acc : List (List Char × T))
      (sufs : List (List Char)),
      (PyDict.keys entries).Nodup →
      (PyDict.keys acc ++ entries.map
        (fun p => if p.1 ∈ sufs then stripSuffix p.1 else p.1)).Nodup →
      (phase2Go acc entries sufs).1
        = acc ++ entries.map
            (fun p => (if p.1 ∈ sufs then stripSuffix p.1 else p.1, p.2)) := by
  intro entries
  induction entries with
  | nil =>
    intro acc sufs _ _
    simp [phase2Go]
  | cons e rest ih =>
    intro acc sufs hknd htgt
    obtain ⟨k, v⟩ := e
    have hkrest : k ∉ PyDict.keys rest ∧ (PyDict.keys rest).Nodup :=
      List.nodup_cons.mp hknd
    have htgtdisj := (List.nodup_append.mp htgt).2.2
    have htgthead : (if k ∈ sufs then stripSuffix k else k) ∉ PyDict.keys acc := by
      intro hc
      exact htgtdisj hc (List.mem_cons_self _ _)
    have hmapstable : ∀ (sufs' : List (List Char)),
        (∀ x, x ≠ k → (x ∈ sufs' ↔ x ∈ sufs)) →
        rest.map (fun p => if p.1 ∈ sufs' then stripSuffix p.1 else p.1)
          = rest.map (fun p => if p.1 ∈ sufs then stripSuffix p.1 else p.1) := by
      intro sufs' hiff
      apply List.map_congr_left
      intro p hp
      have hpk : p.1 ≠ k := by
        intro hc
        apply hkrest.1
        rw [← hc]
        exact List.mem_map_of_mem Prod.fst hp
      simp only [hiff p.1 hpk]
    have hmapstable' : ∀ (sufs' : List (List Char)),
        (∀ x, x ≠ k → (x ∈ sufs' ↔ x ∈ sufs)) →
        rest.map (fun p => ((if p.1 ∈ sufs' then stripSuffix p.1 else p.1), p.2))
          = rest.map (fun p => ((if p.1 ∈ sufs then stripSuffix p.1 else p.1), p.2)) := by
      intro sufs' hiff
      apply List.map_congr_left
      intro p hp
      have hpk : p.1 ≠ k := by
        intro hc
        apply hkrest.1
        rw [← hc]
        exact List.mem_map_of_mem Prod.fst hp
      simp only [hiff p.1 hpk]
    by_cases hk : k ∈ sufs
    · have hstep : phase2Go acc ((k, v) :: rest) sufs
          = phase2Go (PyDict.setKey acc (stripSuffix k) v) rest (sufs.erase k) := by
        rw [phase2Go, if_pos hk]
      have hset : PyDict.setKey acc (stripSuffix k) v = acc ++ [(stripSuffix k, v)] :=
        setKey_append_of_not_mem acc _ v (by simpa [hk] using htgthead)
      have herase : ∀ x, x ≠ k → (x ∈ sufs.erase k ↔ x ∈ sufs) :=
        fun x hx => List.mem_erase_of_ne hx
      have hrec := ih (acc ++ [(stripSuffix k, v)]) (sufs.erase k) hkrest.2 (by
        rw [keys_append, hmapstable _ herase, List.append_assoc]
        simpa [hk, PyDict.keys] using htgt)
      rw [hstep, hset, hrec, hmapstable' _ herase]
      simp [hk, List.append_assoc]
    · have hstep : phase2Go acc ((k, v) :: rest) sufs
          = phase2Go (PyDict.setKey acc k v) rest sufs := by
        rw [phase2Go, if_neg hk]
      have hset : PyDict.setKey acc k v = acc ++ [(k, v)] :=
        setKey_append_of_not_mem acc _ v (by simpa [hk] using htgthead)
      have hrec := ih (acc ++ [(k, v)]) sufs hkrest.2 (by
        rw [keys_append, List.append_assoc]
        simpa [hk, PyDict.keys] using htgt)
      rw [hstep, hset, hrec]
      simp [hk, List.append_assoc]

theorem keys_filter_not_mem {T : Type} (d : List (List Char × T))
    (olds : List (List Char)) :
    PyDict.keys (d.filter (fun p => ¬ p.1 ∈ olds))
      = (PyDict.keys d).filter (fun c => ¬ c ∈ olds) := by
  induction d with
  | nil => rfl
  | cons p rest ih =>
    by_cases hm : p.1 ∈ olds
    · simp only [List.filter_cons]
      rw [if_neg (by simpa using hm)]
      simp only [PyDict.keys, List.map_cons, List.filter_cons]
      rw [if_neg (by simpa using hm)]
      exact ih
    · simp only [List.filter_cons]
      rw [if_pos (by simpa using hm)]
      simp only [PyDict.keys, List.map_cons, List.filter_cons]
      rw [if_pos (by simpa using hm)]
      simpa [PyDict.keys] using congrArg (List.cons p.1) ih

theorem keys_sufPairs {T : Type} (d : List (List Char × T))
    (l : List ((List Char × List Char) × List Char)) :
    PyDict.keys (l.filterMap
        (fun q => (PyDict.get? d q.1.1).map (fun v => (q.1.2 ++ q.2, v))))
      = (l.filter (fun q => (PyDict.get? d q.1.1).isSome)).map
          (fun q => q.1.2 ++ q.2) := by
  induction l with
  | nil => rfl
  | cons q rest ih =>
    cases hget : PyDict.get? d q.1.1 with
    | none => simpa [List.filterMap_cons, List.filter_cons, hget] using ih
    | some v =>
      simp only [List.filterMap_cons, hget, Option.map_some, List.filter_cons]
      simpa [PyDict.keys, hget] using congrArg (List.cons (q.1.2 ++ q.2)) ih

theorem presentSfx_sublist {T : Type} (d : List (List Char × T))
    (ren : List (List Char × List Char)) (σs : List (List Char)) :
    (presentSfx d ren σs).Sublist (sfxList ren σs) :=
  List.Sublist.map _ (List.filter_sublist _)

/-- Phase-2 key targets of the phase-1 suffixed entries: each present
pair's suffixed key is in the suffix set and strips back to `new`. -/
theorem map_target_filterMap {T : Type} (d : List (List Char × T))
    (S : List (List Char)) :
    ∀ (l : List ((List Char × List Char) × List Char)),
      (∀ q ∈ l, (PyDict.get? d q.1.1).isSome = true → (q.1.2 ++ q.2) ∈ S) →
      (∀ q ∈ l, stripSuffix (q.1.2 ++ q.2) = q.1.2) →
      (l.filterMap
          (fun q => (PyDict.get? d q.1.1).map (fun v => (q.1.2 ++ q.2, v)))).map
        (fun p => if p.1 ∈ S then stripSuffix p.1 else p.1)
      = (l.filter (fun q => (PyDict.get? d q.1.1).isSome)).map
          (fun q => q.1.2) := by
  intro l
  induction l with
  | nil => intro _ _; rfl
  | cons q rest ih =>
    intro hin hstrip
    have hin' := fun x hx => hin x (List.mem_cons_of_mem _ hx)
    have hstrip' := fun x hx => hstrip x (List.mem_cons_of_mem _ hx)
    cases hget : PyDict.get? d q.1.1 with
    | none =>
      simp only [List.filterMap_cons, hget, List.filter_cons]
      rw [if_neg (by simp [hget])]
      exact ih hin' hstrip'
    | some v =>
      simp only [List.filterMap_cons, hget, Option.map_some', List.filter_cons]
      rw [if_pos (by simp [hget])]
      simp only [List.map_cons]
      rw [if_pos (hin q (List.mem_cons_self _ _) (by simp [hget])),
        hstrip q (List.mem_cons_self _ _), ih hin' hstrip']

/-- Phase-2 entry rewriting of the phase-1 suffixed entries: each present
pair's suffixed entry becomes `(new, d[old])`. -/
theorem map_pair_target_filterMap {T : Type} (d : List (List Char × T))
    (S : List (List Char)) :
    ∀ (l : List ((List Char × List Char) × List Char)),
      (∀ q ∈ l, (PyDict.get? d q.1.1).isSome = true → (q.1.2 ++ q.2) ∈ S) →
      (∀ q ∈ l, stripSuffix (q.1.2 ++ q.2) = q.1.2) →
      (l.filterMap
          (fun q => (PyDict.get? d q.1.1).map (fun v => (q.1.2 ++ q.2, v)))).map
        (fun p => ((if p.1 ∈ S then stripSuffix p.1 else p.1), p.2))
      = l.filterMap
          (fun q => (PyDict.get? d q.1.1).map (fun v => (q.1.2, v))) := by
  intro l
  induction l with
  | nil => intro _ _; rfl
  | cons q rest ih =>
    intro hin hstrip
    have hin' := fun x hx => hin x (List.mem_cons_of_mem _ hx)
    have hstrip' := fun x hx => hstrip x (List.mem_cons_of_mem _ hx)
    cases hget : PyDict.get? d q.1.1 with
    | none =>
      simp only [List.filterMap_cons, hget]
      exact ih hin' hstrip'
    | some v =>
      simp only [List.filterMap_cons, hget, Option.map_some', List.map_cons]
      rw [if_pos (hin q (List.mem_cons_self _ _) (by simp [hget])),
        hstrip q (List.mem_cons_self _ _), ih hin' hstrip']

/-- The two-phase per-element rename computes the σ-free normal form:
non-renamed entries in order, then `(new, d[old])` per present rename
pair.  The hypotheses say the ledger and rename keys are Python dicts
(no duplicate keys), the random suffixes do not collide, and the final
key set is collision-free (which the container-level validity check
guarantees). -/
theorem renameLedger_eq_pure {T : Type}
    (d : List (List Char × T)) (ren : List (List Char × List Char))
    (σs : List (List Char))
    (hkeys : (PyDict.keys d).Nodup)
    (holds : (ren.map Prod.fst).Nodup)
    (hfresh : FreshSuffixes d ren σs)
    (htargets : ((PyDict.keys d).filter (fun c => ¬ c ∈ ren.map Prod.fst)
        ++ ((ren.zip σs).filter (fun q => (PyDict.get? d q.1.1).isSome)).map
             (fun q => q.1.2)).Nodup) :
    renameLedger d ren σs = pureRenameLedger ren d := by
  obtain ⟨hlen, hlen8, hsfxnd, hsfxmem⟩ := hfresh
  have h1 := phase1Go_spec ren σs d [] hlen hkeys holds hsfxnd
    (fun x hx => (hsfxmem x hx).1) (fun x hx => (hsfxmem x hx).2)
    (fun x _ => by simp)
  unfold renameLedger
  rw [h1]
  simp only [List.append_nil]
  have hkeptnotin : ∀ (p : List Char × T),
      p ∈ d.filter (fun p => ¬ p.1 ∈ ren.map Prod.fst) →
      p.1 ∉ (presentSfx d ren σs).reverse := by
    intro p hp hc
    have hpd : p ∈ d := List.mem_of_mem_filter hp
    have hpk : p.1 ∈ PyDict.keys d := List.mem_map_of_mem Prod.fst hpd
    rw [List.mem_reverse] at hc
    exact (hsfxmem p.1 ((presentSfx_sublist d ren σs).subset hc)).1 hpk
  have hsfxin : ∀ q ∈ ren.zip σs, (PyDict.get? d q.1.1).isSome = true →
      (q.1.2 ++ q.2) ∈ (presentSfx d ren σs).reverse := by
    intro q hq hsome
    rw [List.mem_reverse]
    exact List.mem_map_of_mem _ (List.mem_filter.mpr ⟨hq, hsome⟩)
  have hstripq : ∀ q ∈ ren.zip σs, stripSuffix (q.1.2 ++ q.2) = q.1.2 :=
    fun q hq => stripSuffix_append q.1.2 q.2 (hlen8 q.2 (List.of_mem_zip hq).2)
  -- hypotheses of the phase-2 closed form
  have hkeysL1 : (PyDict.keys
      (d.filter (fun p => ¬ p.1 ∈ ren.map Prod.fst) ++
        (ren.zip σs).filterMap
          (fun q => (PyDict.get? d q.1.1).map (fun v => (q.1.2 ++ q.2, v))))).Nodup := by
    rw [keys_append, keys_filter_not_mem, keys_sufPairs]
    apply List.Nodup.append (hkeys.filter _)
      ((presentSfx_sublist d ren σs).nodup hsfxnd)
    intro x hx hx2
    have hxd : x ∈ PyDict.keys d := List.mem_of_mem_filter hx
    exact (hsfxmem x ((presentSfx_sublist d ren σs).subset hx2)).1 hxd
  have htargets2 : (PyDict.keys ([] : List (List Char × T)) ++
      (d.filter (fun p => ¬ p.1 ∈ ren.map Prod.fst) ++
        (ren.zip σs).filterMap
          (fun q => (PyDict.get? d q.1.1).map (fun v => (q.1.2 ++ q.2, v)))).map
        (fun p => if p.1 ∈ (presentSfx d ren σs).reverse
                  then stripSuffix p.1 else p.1)).Nodup := by
    rw [List.map_append]
    have hleft : (d.filter (fun p => ¬ p.1 ∈ ren.map Prod.fst)).map
        (fun p => if p.1 ∈ (presentSfx d ren σs).reverse
                  then stripSuffix p.1 else p.1)
        = (PyDict.keys d).filter (fun c => ¬ c ∈ ren.map Prod.fst) := by
      rw [← keys_filter_not_mem]
      unfold PyDict.keys
      apply List.map_congr_left
      intro p hp
      rw [if_neg (hkeptnotin p hp)]
    rw [hleft, map_target_filterMap d _ (ren.zip σs) hsfxin hstripq]
    simpa [PyDict.keys] using htargets
  have h2 := phase2Go_spec
    (d.filter (fun p => ¬ p.1 ∈ ren.map Prod.fst) ++
      (ren.zip σs).filterMap
        (fun q => (PyDict.get? d q.1.1).map (fun v => (q.1.2 ++ q.2, v))))
    [] ((presentSfx d ren σs).reverse) hkeysL1 htargets2
  rw [h2]
  simp only [List.nil_append, List.map_append]
  have hleftpairs : (d.filter (fun p => ¬ p.1 ∈ ren.map Prod.fst)).map
      (fun p => ((if p.1 ∈ (presentSfx d ren σs).reverse
                  then stripSuffix p.1 else p.1), p.2))
      = d.filter (fun p => ¬ p.1 ∈ ren.map Prod.fst) := by
    rw [show (d.filter (fun p => ¬ p.1 ∈ ren.map Prod.fst)).map
          (fun p => ((if p.1 ∈ (presentSfx d ren σs).reverse
                      then stripSuffix p.1 else p.1), p.2))
        = (d.filter (fun p => ¬ p.1 ∈ ren.map Prod.fst)).map (fun p => (p.1, p.2))
      from List.map_congr_left (fun p hp => by rw [if_neg (hkeptnotin p hp)])]
    simp
  rw [hleftpairs, map_pair_target_filterMap d _ (ren.zip σs) hsfxin hstripq]
  unfold pureRenameLedger
  congr 1
  have hzf : (ren.zip σs).map Prod.fst = ren :=
    List.map_fst_zip ren σs (Nat.le_of_eq hlen.symm)
  conv_rhs => rw [← hzf, List.filterMap_map]
  rfl

/-- Consequences of the validity check passing: every `old` is an
existing coordinate system, no `new` collides with the initial
`new_names` list, and the `new` targets are pairwise distinct. -/
theorem renameCheckGo_consequences (oldNames : List (List Char)) :
    ∀ (ren : List (List Char × List Char)) (newNames : List (List Char)),
      renameCheckGo oldNames newNames ren = none →
      (∀ pr ∈ ren, pr.1 ∈ oldNames) ∧
      (∀ pr ∈ ren, pr.2 ∉ newNames) ∧
      (ren.map Prod.snd).Nodup := by
  intro ren
  induction ren with
  | nil =>
    intro newNames _
    exact ⟨by simp, by simp, by simp⟩
  | cons pr rest ih =>
    intro newNames hchk
    obtain ⟨o, n⟩ := pr
    rw [renameCheckGo] at hchk
    by_cases ho : o ∈ oldNames
    · rw [if_neg (by simpa using ho)] at hchk
      by_cases hn : n ∈ newNames
      · rw [if_pos hn] at hchk
        cases hchk
      · rw [if_neg hn] at hchk
        obtain ⟨hold, hnew, hnd⟩ := ih (newNames ++ [n]) hchk
        refine ⟨?_, ?_, ?_⟩
        · intro q hq
          rcases List.mem_cons.mp hq with hq | hq
          · rw [hq]
            exact ho
          · exact hold q hq
        · intro q hq
          rcases List.mem_cons.mp hq with hq | hq
          · rw [hq]
            exact hn
          · intro hc
            exact hnew q hq (List.mem_append_left _ hc)
        · simp only [List.map_cons, List.nodup_cons]
          refine ⟨?_, hnd⟩
          intro hc
          obtain ⟨q, hq, hq2⟩ := List.mem_map.mp hc
          exact hnew q hq (by rw [hq2]; simp)
    · rw [if_pos (by simpa using ho)] at hchk
      cases hchk

/-- Every ledger key of every element is a container coordinate system. -/
theorem mem_coordinateSystems_of_mem_keys {T : Type}
    (es : List (List (List Char × T))) (d : List (List Char × T))
    (c : List Char) (hd : d ∈ es) (hc : c ∈ PyDict.keys d) :
    c ∈ coordinateSystems es := by
  unfold coordinateSystems
  rw [List.mem_flatten]
  exact ⟨PyDict.keys d, List.mem_map_of_mem _ hd, hc⟩

/-- When the validity check passes, `rename_coordinate_systems` succeeds
and every element's ledger is replaced by its σ-free normal form. -/
theorem renameCoordinateSystems_ok_eq {T : Type}
    (es : List (List (List Char × T))) (ren : List (List Char × List Char))
    (σss : List (List (List Char)))
    (hkeys : ∀ d ∈ es, (PyDict.keys d).Nodup)
    (holds : (ren.map Prod.fst).Nodup)
    (hlen : σss.length = es.length)
    (hfresh : ∀ q ∈ es.zip σss, FreshSuffixes q.1 ren q.2)
    (hchk : renameCheckGo (coordinateSystems es)
        ((coordinateSystems es).filter (fun c => ¬ c ∈ ren.map Prod.fst)) ren
      = none) :
    renameCoordinateSystems es ren σss
      = .ok (es.map (pureRenameLedger ren)) := by
  obtain ⟨hold, hnew, hnd⟩ := renameCheckGo_consequences _ ren _ hchk
  unfold renameCoordinateSystems
  rw [hchk]
  show Except.ok ((es.zip σss).map (fun q => renameLedger q.1 ren q.2)) = _
  congr 1
  have hzf : (es.zip σss).map Prod.fst = es :=
    List.map_fst_zip es σss (Nat.le_of_eq hlen.symm)
  conv_rhs => rw [← hzf, List.map_map]
  apply List.map_congr_left
  intro q hq
  have hqes : q.1 ∈ es := (List.of_mem_zip hq).1
  have hfq := hfresh q hq
  -- the collision-freedom of the final key set, from the validity check
  have htargets : ((PyDict.keys q.1).filter (fun c => ¬ c ∈ ren.map Prod.fst)
      ++ ((ren.zip q.2).filter (fun r => (PyDict.get? q.1 r.1.1).isSome)).map
           (fun r => r.1.2)).Nodup := by
    have hA : ((PyDict.keys q.1).filter (fun c => ¬ c ∈ ren.map Prod.fst)).Nodup :=
      (hkeys q.1 hqes).filter _
    have hsubB : (((ren.zip q.2).filter
        (fun r => (PyDict.get? q.1 r.1.1).isSome)).map (fun r => r.1.2)).Sublist
          (ren.map Prod.snd) := by
      have h1 : (((ren.zip q.2).filter
          (fun r => (PyDict.get? q.1 r.1.1).isSome)).map (fun r => r.1.2)).Sublist
            ((ren.zip q.2).map (fun r => r.1.2)) :=
        List.Sublist.map _ (List.filter_sublist _)
      have h2 : (ren.zip q.2).map (fun r => r.1.2) = ren.map Prod.snd := by
        have hzf2 : (ren.zip q.2).map Prod.fst = ren :=
          List.map_fst_zip ren q.2 (Nat.le_of_eq hfq.1.symm)
        conv_rhs => rw [← hzf2, List.map_map]
        rfl
      exact h2 ▸ h1
    have hB : (((ren.zip q.2).filter
        (fun r => (PyDict.get? q.1 r.1.1).isSome)).map (fun r => r.1.2)).Nodup :=
      hsubB.nodup hnd
    apply List.Nodup.append hA hB
    intro x hxA hxB
    have hxkeys : x ∈ PyDict.keys q.1 := List.mem_of_mem_filter hxA
    have hxnotold : x ∉ ren.map Prod.fst := by
      have := List.of_mem_filter hxA
      simpa using this
    have hxnew : x ∈ (coordinateSystems es).filter
        (fun c => ¬ c ∈ ren.map Prod.fst) :=
      List.mem_filter.mpr
        ⟨mem_coordinateSystems_of_mem_keys es q.1 x hqes hxkeys, by simpa using hxnotold⟩
    obtain ⟨r, hr, hr2⟩ := List.mem_map.mp hxB
    have hrren : r.1 ∈ ren := (List.of_mem_zip (List.mem_of_mem_filter hr)).1
    exact hnew r.1 hrren (hr2 ▸ hxnew)
  exact renameLedger_eq_pure q.1 ren q.2 (hkeys q.1 hqes) holds hfq htargets

theorem get?_filter_not_mem {T : Type} (d : List (List Char × T))
    (olds : List (List Char)) (c : List Char) (hc : ¬ c ∈ olds) :
    PyDict.get? (d.filter (fun p => ¬ p.1 ∈ olds)) c = PyDict.get? d c := by
  induction d with
  | nil => rfl
  | cons p rest ih =>
    by_cases hm : p.1 ∈ olds
    · have hpc : ¬ p.1 = c := fun h => hc (h ▸ hm)
      rw [List.filter_cons, if_neg (by simpa using hm), ih,
        PyDict.get?_cons, if_neg hpc]
    · rw [List.filter_cons, if_pos (by simpa using hm),
        PyDict.get?_cons, PyDict.get?_cons]
      by_cases hpc : p.1 = c
      · rw [if_pos hpc, if_pos hpc]
      · rw [if_neg hpc, if_neg hpc, ih]

theorem get?_filter_none {T : Type} (d : List (List Char × T))
    (olds : List (List Char)) (c : List Char) (hc : c ∈ olds) :
    PyDict.get? (d.filter (fun p => ¬ p.1 ∈ olds)) c = none := by
  rw [PyDict.get?_eq_none_iff, keys_filter_not_mem]
  intro hmem
  have := List.of_mem_filter hmem
  simp at this
  exact this hc

/-- Keys produced by the renamed-pairs part of the normal form are rename
targets. -/
theorem keys_filterMap_pure {T : Type} (d : List (List Char × T)) :
    ∀ (ren : List (List Char × List Char)) (c : List Char),
      c ∈ PyDict.keys (ren.filterMap
        (fun pr => (PyDict.get? d pr.1).map (fun v => (pr.2, v)))) →
      c ∈ ren.map Prod.snd := by
  intro ren
  induction ren with
  | nil => intro c hc; simp [PyDict.keys] at hc
  | cons pr rest ih =>
    intro c hc
    cases hget : PyDict.get? d pr.1 with
    | none =>
      rw [List.filterMap_cons, hget] at hc
      exact List.mem_cons_of_mem _ (ih c hc)
    | some v =>
      rw [List.filterMap_cons, hget] at hc
      simp only [Option.map_some', PyDict.keys, List.map_cons, List.mem_cons] at hc
      rcases hc with hc | hc
      · simp [hc]
      · exact List.mem_cons_of_mem _ (ih c hc)

/-- Every key of the σ-free normal form is an original key or a rename
target: the random temporary suffixes never leak into the final ledger. -/
theorem keys_pure_subset {T : Type} (d : List (List Char × T))
    (ren : List (List Char × List Char)) (c : List Char)
    (hc : c ∈ PyDict.keys (pureRenameLedger ren d)) :
    c ∈ PyDict.keys d ∨ c ∈ ren.map Prod.snd := by
  unfold pureRenameLedger at hc
  rw [keys_append] at hc
  rcases List.mem_append.mp hc with hc | hc
  · rw [keys_filter_not_mem] at hc
    exact Or.inl (List.mem_of_mem_filter hc)
  · exact Or.inr (keys_filterMap_pure d ren c hc)

end Rename

/-- C10.  Rename determinism: for every container state and every rename
mapping, two runs of `rename_coordinate_systems` with different (but
collision-free) random suffix draws return identical results — the same
error when the validity check fails, and ledgers that are equal as
key-to-transform maps when it succeeds; moreover the random suffix values
never leak into the final ledger keys (every final key is an original
coordinate system or a rename target). -/
theorem C10_rename_deterministic {T : Type}
    (es : List (List (List Char × T))) (ren : List (List Char × List Char))
    (σss σss' : List (List (List Char)))
    (hkeys : ∀ d ∈ es, (PyDict.keys d).Nodup)
    (holds : (ren.map Prod.fst).Nodup)
    (hlen : σss.length = es.length) (hlen' : σss'.length = es.length)
    (hfresh : ∀ q ∈ es.zip σss, Rename.FreshSuffixes q.1 ren q.2)
    (hfresh' : ∀ q ∈ es.zip σss', Rename.FreshSuffixes q.1 ren q.2) :
    Rename.renameCoordinateSystems es ren σss
      = Rename.renameCoordinateSystems es ren σss' ∧
    ∀ res, Rename.renameCoordinateSystems es ren σss = .ok res →
      ∀ d' ∈ res, ∀ c ∈ PyDict.keys d',
        c ∈ Rename.coordinateSystems es ∨ c ∈ ren.map Prod.snd := by
  cases hchk : Rename.renameCheckGo (Rename.coordinateSystems es)
      ((Rename.coordinateSystems es).filter
        (fun c => ¬ c ∈ ren.map Prod.fst)) ren with
  | some e =>
    constructor
    · unfold Rename.renameCoordinateSystems
      rw [hchk]
    · intro res hres
      unfold Rename.renameCoordinateSystems at hres
      rw [hchk] at hres
      exact absurd hres (by simp)
  | none =>
    have h1 := Rename.renameCoordinateSystems_ok_eq es ren σss
      hkeys holds hlen hfresh hchk
    have h2 := Rename.renameCoordinateSystems_ok_eq es ren σss'
      hkeys holds hlen' hfresh' hchk
    refine ⟨h1.trans h2.symm, ?_⟩
    intro res hres
    rw [h1] at hres
    have hres' : res = es.map (Rename.pureRenameLedger ren) :=
      (Except.ok.inj hres).symm
    subst hres'
    intro d' hd' c hc
    obtain ⟨d, hd, hde⟩ := List.mem_map.mp hd'
    subst hde
    rcases Rename.keys_pure_subset d ren c hc with h | h
    · exact Or.inl (Rename.mem_coordinateSystems_of_mem_keys es d c hd h)
    · exact Or.inr h

/-- Witness for C10 at a concrete input: one element mapping "a" and "b"
to transforms 1 and 2, the swap rename, and two different suffix draws
give identical results. -/
theorem C10_rename_deterministic_witness :
    Rename.renameCoordinateSystems
      [[(['a'], (1 : Nat)), (['b'], 2)]]
      [(['a'], ['b']), (['b'], ['a'])]
      [[['s', 's', 's', 's', 's', 's', 's', 's'],
        ['t', 't', 't', 't', 't', 't', 't', 't']]]
      = Rename.renameCoordinateSystems
          [[(['a'], (1 : Nat)), (['b'], 2)]]
          [(['a'], ['b']), (['b'], ['a'])]
          [[['u', 'u', 'u', 'u', 'u', 'u', 'u', 'u'],
            ['v', 'v', 'v', 'v', 'v', 'v', 'v', 'v']]] :=
  (C10_rename_deterministic
    [[(['a'], (1 : Nat)), (['b'], 2)]]
    [(['a'], ['b']), (['b'], ['a'])]
    [[['s', 's', 's', 's', 's', 's', 's', 's'],
      ['t', 't', 't', 't', 't', 't', 't', 't']]]
    [[['u', 'u', 'u', 'u', 'u', 'u', 'u', 'u'],
      ['v', 'v', 'v', 'v', 'v', 'v', 'v', 'v']]]
    (by decide) (by decide) (by decide) (by decide) (by decide) (by decide)).1

/-- C4.  Rename swap correctness: on a container in which some element's
ledger contains both coordinate systems `A` and `B`, the self-referential
swap `{A: B, B: A}` passes the validity check and succeeds, and every
element holding both `A` and `B` ends with the same two transforms under
exchanged keys — `A` now maps to the old `B` transform and vice versa —
while every other ledger entry and the ledger's key set are unchanged. -/
theorem C4_rename_swap {T : Type}
    (es : List (List (List Char × T))) (A B : List Char)
    (σss : List (List (List Char)))
    (hAB : ¬ A = B)
    (hkeys : ∀ d ∈ es, (PyDict.keys d).Nodup)
    (hlen : σss.length = es.length)
    (hfresh : ∀ q ∈ es.zip σss, Rename.FreshSuffixes q.1 [(A, B), (B, A)] q.2)
    (hsome : ∃ d, d ∈ es ∧ A ∈ PyDict.keys d ∧ B ∈ PyDict.keys d) :
    Rename.renameCoordinateSystems es [(A, B), (B, A)] σss
      = .ok (es.map (Rename.pureRenameLedger [(A, B), (B, A)])) ∧
    ∀ d ∈ es, A ∈ PyDict.keys d → B ∈ PyDict.keys d →
      PyDict.get? (Rename.pureRenameLedger [(A, B), (B, A)] d) A
          = PyDict.get? d B ∧
      PyDict.get? (Rename.pureRenameLedger [(A, B), (B, A)] d) B
          = PyDict.get? d A ∧
      (∀ c, ¬ c = A → ¬ c = B →
        PyDict.get? (Rename.pureRenameLedger [(A, B), (B, A)] d) c
          = PyDict.get? d c) ∧
      (∀ c, c ∈ PyDict.keys (Rename.pureRenameLedger [(A, B), (B, A)] d)
          ↔ c ∈ PyDict.keys d) := by
  obtain ⟨d0, hd0, hA0, hB0⟩ := hsome
  have hAcs : A ∈ Rename.coordinateSystems es :=
    Rename.mem_coordinateSystems_of_mem_keys es d0 A hd0 hA0
  have hBcs : B ∈ Rename.coordinateSystems es :=
    Rename.mem_coordinateSystems_of_mem_keys es d0 B hd0 hB0
  have hmapfst : ([(A, B), (B, A)].map Prod.fst) = [A, B] := rfl
  have holds : (([(A, B), (B, A)].map Prod.fst)).Nodup := by
    rw [hmapfst]
    simp [hAB]
  have hBnotnew : B ∉ (Rename.coordinateSystems es).filter
      (fun c => ¬ c ∈ [(A, B), (B, A)].map Prod.fst) := by
    intro hc
    have := List.of_mem_filter hc
    rw [hmapfst] at this
    simp at this
  have hAnotnew : A ∉ ((Rename.coordinateSystems es).filter
      (fun c => ¬ c ∈ [(A, B), (B, A)].map Prod.fst)) ++ [B] := by
    intro hc
    rcases List.mem_append.mp hc with hc | hc
    · have := List.of_mem_filter hc
      rw [hmapfst] at this
      simp at this
    · rw [List.mem_singleton] at hc
      exact hAB hc
  have hchk : Rename.renameCheckGo (Rename.coordinateSystems es)
      ((Rename.coordinateSystems es).filter
        (fun c => ¬ c ∈ [(A, B), (B, A)].map Prod.fst)) [(A, B), (B, A)]
      = none := by
    rw [Rename.renameCheckGo, if_neg (not_not_intro hAcs), if_neg hBnotnew,
      Rename.renameCheckGo, if_neg (not_not_intro hBcs), if_neg hAnotnew]
    rfl
  refine ⟨Rename.renameCoordinateSystems_ok_eq es [(A, B), (B, A)] σss
    hkeys holds hlen hfresh hchk, ?_⟩
  intro d hd hA hB
  obtain ⟨vA, hvA⟩ := Option.isSome_iff_exists.mp
    ((Rename.get?_isSome_iff_mem d A).mpr hA)
  obtain ⟨vB, hvB⟩ := Option.isSome_iff_exists.mp
    ((Rename.get?_isSome_iff_mem d B).mpr hB)
  have hpure : Rename.pureRenameLedger [(A, B), (B, A)] d
      = d.filter (fun p => ¬ p.1 ∈ [(A, B), (B, A)].map Prod.fst)
        ++ [(B, vA), (A, vB)] := by
    unfold Rename.pureRenameLedger
    rw [List.filterMap_cons, List.filterMap_cons, List.filterMap_nil, hvA, hvB]
    rfl
  have hBA : ¬ B = A := fun h => hAB h.symm
  have hAmem : A ∈ ([A, B] : List (List Char)) := by simp
  have hBmem : B ∈ ([A, B] : List (List Char)) := by simp
  refine ⟨?_, ?_, ?_, ?_⟩
  · rw [hpure, PyDict.get?_append,
      Rename.get?_filter_none d ([(A, B), (B, A)].map Prod.fst) A
        (by rw [hmapfst]; exact hAmem)]
    simp only [Option.or]
    rw [PyDict.get?_cons, if_neg hBA, PyDict.get?_cons, if_pos rfl, hvB]
  · rw [hpure, PyDict.get?_append,
      Rename.get?_filter_none d ([(A, B), (B, A)].map Prod.fst) B
        (by rw [hmapfst]; exact hBmem)]
    simp only [Option.or]
    rw [PyDict.get?_cons, if_pos rfl, hvA]
  · intro c hcA hcB
    have hcnot : ¬ c ∈ [(A, B), (B, A)].map Prod.fst := by
      rw [hmapfst]
      simp only [List.mem_cons, List.mem_singleton]
      rintro (hc | hc | hc)
      · exact hcA hc
      · exact hcB hc
      · simp at hc
    have htail : PyDict.get? [((B : List Char), vA), (A, vB)] c = none := by
      rw [PyDict.get?_cons, if_neg (fun h => hcB h.symm),
        PyDict.get?_cons, if_neg (fun h => hcA h.symm)]
      rfl
    rw [hpure, PyDict.get?_append, htail, Option.or_none,
      Rename.get?_filter_not_mem d _ c hcnot]
  · intro c
    rw [hpure, Rename.keys_append, Rename.keys_filter_not_mem]
    simp only [List.mem_append, PyDict.keys, List.map_cons, List.map_nil,
      List.mem_cons, List.mem_singleton, List.mem_filter]
    constructor
    · rintro (⟨h1, _⟩ | h1 | h1 | h1)
      · exact h1
      · rw [h1]; exact hB
      · rw [h1]; exact hA
      · simp at h1
    · intro h1
      by_cases hcA : c = A
      · exact Or.inr (Or.inr (Or.inl hcA))
      · by_cases hcB : c = B
        · exact Or.inr (Or.inl hcB)
        · refine Or.inl ⟨h1, ?_⟩
          simp [hcA, hcB]

/-! ## Table validation in the container (claims C5 and C9)

`SpatialData.validate_table_in_spatialdata` (lines 166–212): if the table
carries annotation metadata, each named region is looked up in the
container; an absent region produces a `UserWarning`; a present region's
identifier dtype is compared with the table's instance-key column dtype
and a `TypeError` is raised when they differ and one of the two compares
equal to `str`.  `SpatialData.__init__` (lines 159–162) validates each
table and then inserts it.

Dtypes are embedded as a closed sum: the (single) textual dtype and
numeric dtypes with an explicit width, so that `dtype == str` is equality
with `Dtype.str` and numeric dtypes of different widths are unequal
without being textual. -/

namespace Validate

inductive Dtype where
  | str
  | int (width : Nat)
  | float (width : Nat)
deriving DecidableEq, Repr

/-- The fields of an annotated table the validator reads: the normalized
region list of its annotation metadata (`none` when the table carries no
metadata) and the dtype of its instance-key column. -/
structure VTable where
  regions : Option (List String)
  instanceDtype : Dtype
deriving DecidableEq, Repr

/-- The region loop of `validate_table_in_spatialdata` (lines 190–212):
accumulates one warning per absent region, raises on the first present
region whose dtype comparison fails. -/
def validateGo (elements : List (String × Dtype)) (ik : Dtype) :
    List String → Except String (List String)
  | [] => .ok []
  | r :: rest =>
    match PyDict.get? elements r with
    | none =>
      match validateGo elements ik rest with
      | .error e => .error e
      | .ok ws => .ok (("The table is annotating " ++ r ++
          ", which is not present in the SpatialData object.") :: ws)
    | some d =>
      if ¬ d = ik ∧ (d = Dtype.str ∨ ik = Dtype.str) then
        .error "Table instance_key column has a dtype that does not match the dtype of the indices of the annotated element."
      else validateGo elements ik rest

/-- `SpatialData.validate_table_in_spatialdata` (lines 166–212) over the
container's name-to-identifier-dtype view: returns the warnings emitted,
or the raised error. -/
def validateTable (elements : List (String × Dtype)) (t : VTable) :
    Except String (List String) :=
  match t.regions with
  | none => .ok []
  | some rs => validateGo elements t.instanceDtype rs

/-- The table-insertion loop of `SpatialData.__init__` (lines 159–162):
each table is validated and then inserted; a raised error aborts. -/
def initTablesGo (elements : List (String × Dtype)) :
    List (String × VTable) → Except String (List (String × VTable) × List String)
  | [] => .ok ([], [])
  | (n, t) :: rest =>
    match validateTable elements t with
    | .error e => .error e
    | .ok ws =>
      match initTablesGo elements rest with
      | .error e => .error e
      | .ok (ts, ws2) => .ok ((n, t) :: ts, ws ++ ws2)

/-- The validator raises exactly when some named region is present with a
dtype pair of which exactly one side is textual. -/
theorem validateGo_error_iff (elements : List (String × Dtype)) (ik : Dtype) :
    ∀ (rs : List String),
      (∃ e, validateGo elements ik rs = .error e) ↔
      ∃ r ∈ rs, ∃ d, PyDict.get? elements r = some d ∧
        ¬ d = ik ∧ (d = Dtype.str ∨ ik = Dtype.str) := by
  intro rs
  induction rs with
  | nil => simp [validateGo]
  | cons r rest ih =>
    cases hget : PyDict.get? elements r with
    | none =>
      have hred : validateGo elements ik (r :: rest)
          = match validateGo elements ik rest with
            | .error e => .error e
            | .ok ws => .ok (("The table is annotating " ++ r ++
                ", which is not present in the SpatialData object.") :: ws) := by
        rw [validateGo, hget]
      rw [hred]
      constructor
      · rintro ⟨e, he⟩
        cases hrec : validateGo elements ik rest with
        | error e2 =>
          obtain ⟨r2, hr2, d2, hd2, hmm⟩ := ih.mp ⟨e2, hrec⟩
          exact ⟨r2, List.mem_cons_of_mem _ hr2, d2, hd2, hmm⟩
        | ok ws =>
          rw [hrec] at he
          cases he
      · rintro ⟨r2, hr2, d2, hd2, hmm⟩
        rcases List.mem_cons.mp hr2 with hr2 | hr2
        · rw [hr2] at hd2
          rw [hget] at hd2
          cases hd2
        · obtain ⟨e, he⟩ := ih.mpr ⟨r2, hr2, d2, hd2, hmm⟩
          rw [he]
          exact ⟨e, rfl⟩
    | some d =>
      have hred : validateGo elements ik (r :: rest)
          = if ¬ d = ik ∧ (d = Dtype.str ∨ ik = Dtype.str) then
              .error "Table instance_key column has a dtype that does not match the dtype of the indices of the annotated element."
            else validateGo elements ik rest := by
        rw [validateGo, hget]
      rw [hred]
      by_cases hcond : ¬ d = ik ∧ (d = Dtype.str ∨ ik = Dtype.str)
      · rw [if_pos hcond]
        constructor
        · intro _
          exact ⟨r, List.mem_cons_self _ _, d, hget, hcond⟩
        · intro _
          exact ⟨_, rfl⟩
      · rw [if_neg hcond]
        constructor
        · intro h
          obtain ⟨r2, hr2, d2, hd2, hmm⟩ := ih.mp h
          exact ⟨r2, List.mem_cons_of_mem _ hr2, d2, hd2, hmm⟩
        · rintro ⟨r2, hr2, d2, hd2, hmm⟩
          rcases List.mem_cons.mp hr2 with hr2 | hr2
          · rw [hr2, hget] at hd2
            have : d2 = d := (Option.some.inj hd2).symm
            rw [this] at hmm
            exact absurd hmm hcond
          · exact ih.mpr ⟨r2, hr2, d2, hd2, hmm⟩

/-- All regions absent: one warning per region, no error. -/
theorem validateGo_all_absent (elements : List (String × Dtype)) (ik : Dtype) :
    ∀ (rs : List String), (∀ r ∈ rs, PyDict.get? elements r = none) →
      ∃ ws, validateGo elements ik rs = .ok ws ∧ ws.length = rs.length := by
  intro rs
  induction rs with
  | nil => intro _; exact ⟨[], rfl, rfl⟩
  | cons r rest ih =>
    intro habs
    obtain ⟨ws, hws, hlen⟩ := ih (fun x hx => habs x (List.mem_cons_of_mem _ hx))
    refine ⟨("The table is annotating " ++ r ++
      ", which is not present in the SpatialData object.") :: ws, ?_, by simp [hlen]⟩
    rw [validateGo, habs r (List.mem_cons_self _ _), hws]

end Validate

/-- C5.  Dtype gate: for a table annotating a region whose element is
present in the container, validation raises a dtype-mismatch error if and
only if exactly one of the element's identifier dtype and the table's
instance-key column dtype is the textual dtype; in particular two numeric
dtypes of different widths are tolerated (validation succeeds). -/
theorem C5_dtype_gate (elements : List (String × Validate.Dtype))
    (r : String) (d ik : Validate.Dtype)
    (hpresent : PyDict.get? elements r = some d) :
    ((∃ e, Validate.validateTable elements ⟨some [r], ik⟩ = .error e) ↔
      ((d = Validate.Dtype.str ∧ ¬ ik = Validate.Dtype.str) ∨
       (¬ d = Validate.Dtype.str ∧ ik = Validate.Dtype.str))) ∧
    (∀ w w', d = Validate.Dtype.int w → ik = Validate.Dtype.int w' →
      ∃ ws, Validate.validateTable elements ⟨some [r], ik⟩ = .ok ws) := by
  have hiff := Validate.validateGo_error_iff elements ik [r]
  constructor
  · rw [show Validate.validateTable elements ⟨some [r], ik⟩
        = Validate.validateGo elements ik [r] from rfl, hiff]
    constructor
    · rintro ⟨r2, hr2, d2, hd2, hne, hstr⟩
      rw [List.mem_singleton] at hr2
      rw [hr2, hpresent] at hd2
      have hdd : d2 = d := (Option.some.inj hd2).symm
      subst hdd
      rcases hstr with hstr | hstr
      · left
        refine ⟨hstr, ?_⟩
        intro hik
        exact hne (hstr.trans hik.symm)
      · right
        refine ⟨?_, hstr⟩
        intro hd
        exact hne (hd.trans hstr.symm)
    · rintro (⟨h1, h2⟩ | ⟨h1, h2⟩)
      · exact ⟨r, List.mem_singleton_self r, d, hpresent,
          fun hc => h2 (hc ▸ h1), Or.inl h1⟩
      · exact ⟨r, List.mem_singleton_self r, d, hpresent,
          fun hc => h1 (hc.symm ▸ h2), Or.inr h2⟩
  · intro w w' hw hw'
    cases hok : Validate.validateTable elements ⟨some [r], ik⟩ with
    | ok ws => exact ⟨ws, rfl⟩
    | error e =>
      have herr : ∃ e, Validate.validateGo elements ik [r] = .error e := ⟨e, hok⟩
      obtain ⟨r2, hr2, d2, hd2, _, hstr⟩ := hiff.mp herr
      rw [List.mem_singleton] at hr2
      rw [hr2, hpresent] at hd2
      have hdd : d2 = d := (Option.some.inj hd2).symm
      subst hdd
      rcases hstr with hstr | hstr
      · rw [hw] at hstr
        cases hstr
      · rw [hw'] at hstr
        cases hstr

/-- Witness for C5 at concrete dtypes: with element identifier dtype
`int 32` and instance-key dtype `int 64` (a pure width mismatch),
validation does not raise. -/
theorem C5_dtype_gate_witness :
    ∃ ws, Validate.validateTable [("el", Validate.Dtype.int 32)]
      ⟨some ["el"], Validate.Dtype.int 64⟩ = .ok ws :=
  (C5_dtype_gate [("el", Validate.Dtype.int 32)] "el"
      (Validate.Dtype.int 32) (Validate.Dtype.int 64) (by decide)).2
    32 64 rfl rfl

/-- C9.  Referential mismatch is non-fatal: a table whose annotation
metadata names only regions absent from the container passes validation
with one warning per absent region and is accepted by the container
constructor; and any error the validator raises comes from the dtype
comparison on a PRESENT region (absent regions can never make validation
fatal). -/
theorem C9_referential_warning (elements : List (String × Validate.Dtype))
    (t : Validate.VTable) (rs : List String) (n : String)
    (hrs : t.regions = some rs)
    (habsent : ∀ r ∈ rs, PyDict.get? elements r = none) :
    (∃ ws, Validate.validateTable elements t = .ok ws ∧ ws.length = rs.length ∧
      Validate.initTablesGo elements [(n, t)] = .ok ([(n, t)], ws)) ∧
    (∀ (t' : Validate.VTable) (e : String),
      Validate.validateTable elements t' = .error e →
      ∃ rs' r d, t'.regions = some rs' ∧ r ∈ rs' ∧
        PyDict.get? elements r = some d ∧
        ¬ d = t'.instanceDtype ∧
        (d = Validate.Dtype.str ∨ t'.instanceDtype = Validate.Dtype.str)) := by
  constructor
  · obtain ⟨ws, hws, hlen⟩ :=
      Validate.validateGo_all_absent elements t.instanceDtype rs habsent
    have hval : Validate.validateTable elements t = .ok ws := by
      unfold Validate.validateTable
      rw [hrs]
      exact hws
    refine ⟨ws, hval, hlen, ?_⟩
    rw [Validate.initTablesGo, hval]
    simp [Validate.initTablesGo]
  · intro t' e he
    unfold Validate.validateTable at he
    cases hrs' : t'.regions with
    | none =>
      rw [hrs'] at he
      cases he
    | some rs' =>
      rw [hrs'] at he
      obtain ⟨r, hr, d, hd, hne, hstr⟩ :=
        (Validate.validateGo_error_iff elements t'.instanceDtype rs').mp ⟨e, he⟩
      exact ⟨rs', r, d, rfl, hr, hd, hne, hstr⟩

/-- Witness for C9 at a concrete input: a table annotating the absent
region "missing" is validated with one warning and accepted. -/
theorem C9_referential_warning_witness :
    ∃ ws, Validate.validateTable [("el", Validate.Dtype.int 32)]
        ⟨some ["missing"], Validate.Dtype.int 64⟩ = .ok ws ∧
      ws.length = ["missing"].length ∧
      Validate.initTablesGo [("el", Validate.Dtype.int 32)]
          [("t", ⟨some ["missing"], Validate.Dtype.int 64⟩)]
        = .ok ([("t", ⟨some ["missing"], Validate.Dtype.int 64⟩)], ws) :=
  (C9_referential_warning [("el", Validate.Dtype.int 32)]
    ⟨some ["missing"], Validate.Dtype.int 64⟩ ["missing"] "t"
    rfl (by decide)).1

/-- Witness for C4 at a concrete input: the swap on a ledger holding
`a ↦ 1`, `b ↦ 2`, `c ↦ 3` yields `c ↦ 3, b ↦ 1, a ↦ 2`. -/
theorem C4_rename_swap_witness :
    Rename.renameCoordinateSystems
      [[(['a'], (1 : Nat)), (['b'], 2), (['c'], 3)]]
      [(['a'], ['b']), (['b'], ['a'])]
      [[['s', 's', 's', 's', 's', 's', 's', 's'],
        ['t', 't', 't', 't', 't', 't', 't', 't']]]
      = .ok ([[(['a'], (1 : Nat)), (['b'], 2), (['c'], 3)]].map
          (Rename.pureRenameLedger [(['a'], ['b']), (['b'], ['a'])])) :=
  (C4_rename_swap [[(['a'], (1 : Nat)), (['b'], 2), (['c'], 3)]]
    ['a'] ['b']
    [[['s', 's', 's', 's', 's', 's', 's', 's'],
      ['t', 't', 't', 't', 't', 't', 't', 't']]]
    (by decide) (by decide) (by decide) (by decide)
    ⟨[(['a'], (1 : Nat)), (['b'], 2), (['c'], 3)], by decide, by decide,
      by decide⟩).1

/-! ## Table annotation binding (claim C6)

`SpatialData.set_table_annotates_spatialelement` (lines 403–443) and the
static helpers `_set_table_annotation_target` (322–362) and
`_change_table_annotation_target` (364–401).  A table is embedded as its
`obs` columns (each a list of string values, the shape the region-key
column takes) plus optional annotation metadata.  The key-existence
validators and the symmetry check live in the table model
(`spatialdata.models`), which is not among the source files; they are
modelled from the spec.  The source performs every check before the
single assignment that mutates `table.uns`, so the embedding returns the
error before constructing any new table state. -/

namespace Annot

structure TAttrs where
  region : List String
  region_key : String
  instance_key : String
deriving DecidableEq, Repr

structure ATable where
  obs : List (String × List String)
  attrs : Option TAttrs
deriving DecidableEq, Repr

/-- Modelled from the spec: `TableModel._validate_set_region_key` /
`_validate_set_instance_key` (spatialdata.models, not among the source
files) require the (existing or newly supplied) column to exist in
`table.obs`. -/
def colExists (t : ATable) (key : String) : Bool :=
  PyDict.hasKey t.obs key

/-- Modelled from the spec: `check_target_region_column_symmetry`
(spatialdata.models, not among the source files) — the set of distinct
values appearing in the region-key column must be a subset of the
declared region set. -/
def symmetryHolds (t : ATable) (rk : String) (region : List String) : Bool :=
  match PyDict.get? t.obs rk with
  | none => false
  | some vals => vals.all (fun v => v ∈ region)

/-- `SpatialData._set_table_annotation_target` (lines 322–362): validate
the two key columns, run the symmetry check, and only then install the
fresh metadata record. -/
def setTableAnnotationTarget (t : ATable) (region : List String)
    (rk ik : String) : Except String ATable :=
  if ¬ colExists t rk then
    .error "region_key not present in table.obs"
  else if ¬ colExists t ik then
    .error "instance_key not present in table.obs"
  else if symmetryHolds t rk region then
    .ok { t with attrs := some ⟨region, rk, ik⟩ }
  else
    .error "values in region_key column not in region"

/-- `SpatialData._change_table_annotation_target` (lines 364–401): the
effective keys are the supplied ones or the current ones, the symmetry
check runs against the new region, and only the `region` entry of the
existing metadata is overwritten. -/
def changeTableAnnotationTarget (t : ATable) (region : List String)
    (rk ik : Option String) : Except String ATable :=
  match t.attrs with
  | none => .error "table has no annotation metadata"
  | some attrs =>
    if ¬ colExists t (rk.getD attrs.region_key) then
      .error "region_key not present in table.obs"
    else if ¬ colExists t (ik.getD attrs.instance_key) then
      .error "instance_key not present in table.obs"
    else if symmetryHolds t (rk.getD attrs.region_key) region then
      .ok { t with attrs := some { attrs with region := region } }
    else
      .error "values in region_key column not in region"

/-- `SpatialData.set_table_annotates_spatialelement` (lines 403–443):
the region must be the name of a spatial element of the container; a
table with existing metadata takes the change path, a fresh table needs
both keys supplied. -/
def setTableAnnotates (elementNames : List String) (t : ATable)
    (region : String) (rk ik : Option String) : Except String ATable :=
  if ¬ region ∈ elementNames then
    .error "Annotation target not present as SpatialElement in SpatialData object."
  else
    match t.attrs with
    | some _ => changeTableAnnotationTarget t [region] rk ik
    | none =>
      match rk, ik with
      | some rks, some iks => setTableAnnotationTarget t [region] rks iks
      | _, _ =>
        .error "No current annotation metadata found. Please specify both region_key and instance_key."

end Annot

/-- C6.  Annotation symmetry with atomicity: binding a table to a region
set succeeds exactly when every value in its region-key column lies in
the declared region set; on success the only change is the installed
metadata record (the obs columns are untouched); when some value lies
outside the set, the call returns the symmetry error and — the source
assigning `table.uns` only after all checks — no mutated table state
exists.  The same holds on the re-binding path, which overwrites only the
`region` entry. -/
theorem C6_annotation_symmetry (t : Annot.ATable) (region : List String)
    (rk ik : String) (vals : List String)
    (hvals : PyDict.get? t.obs rk = some vals)
    (hik : PyDict.hasKey t.obs ik = true) :
    ((∃ t', Annot.setTableAnnotationTarget t region rk ik = .ok t') ↔
      ∀ v ∈ vals, v ∈ region) ∧
    (∀ t', Annot.setTableAnnotationTarget t region rk ik = .ok t' →
      t' = { t with attrs := some ⟨region, rk, ik⟩ }) ∧
    ((∃ v ∈ vals, ¬ v ∈ region) →
      Annot.setTableAnnotationTarget t region rk ik
        = .error "values in region_key column not in region") ∧
    (∀ attrs, t.attrs = some attrs →
      ((∃ t', Annot.changeTableAnnotationTarget t region (some rk) (some ik)
          = .ok t') ↔ ∀ v ∈ vals, v ∈ region) ∧
      (∀ t', Annot.changeTableAnnotationTarget t region (some rk) (some ik)
          = .ok t' →
        t' = { t with attrs := some { attrs with region := region } })) := by
  have hrk : PyDict.hasKey t.obs rk = true := by
    rw [PyDict.hasKey, hvals]
    rfl
  have hcolrk : Annot.colExists t rk = true := hrk
  have hcolik : Annot.colExists t ik = true := hik
  have hsym : Annot.symmetryHolds t rk region = vals.all (fun v => v ∈ region) := by
    unfold Annot.symmetryHolds
    rw [hvals]
  constructor
  · constructor
    · rintro ⟨t', ht'⟩
      unfold Annot.setTableAnnotationTarget at ht'
      rw [if_neg (by simp [hcolrk]), if_neg (by simp [hcolik])] at ht'
      by_cases hall : Annot.symmetryHolds t rk region = true
      · rw [hsym] at hall
        simpa using hall
      · rw [if_neg hall] at ht'
        cases ht'
    · intro hall
      refine ⟨{ t with attrs := some ⟨region, rk, ik⟩ }, ?_⟩
      unfold Annot.setTableAnnotationTarget
      rw [if_neg (by simp [hcolrk]), if_neg (by simp [hcolik]),
        if_pos (by rw [hsym]; simpa using hall)]
  · constructor
    · intro t' ht'
      unfold Annot.setTableAnnotationTarget at ht'
      rw [if_neg (by simp [hcolrk]), if_neg (by simp [hcolik])] at ht'
      by_cases hall : Annot.symmetryHolds t rk region = true
      · rw [if_pos hall] at ht'
        exact (Except.ok.inj ht').symm
      · rw [if_neg hall] at ht'
        cases ht'
    · constructor
      · rintro ⟨v, hv, hnv⟩
        unfold Annot.setTableAnnotationTarget
        rw [if_neg (by simp [hcolrk]), if_neg (by simp [hcolik]),
          if_neg (by
            rw [hsym]
            simp only [List.all_eq_true]
            intro hall
            exact hnv (by simpa using hall v hv))]
      · intro attrs hattrs
        have hred : Annot.changeTableAnnotationTarget t region (some rk) (some ik)
            = if ¬ Annot.colExists t rk then
                .error "region_key not present in table.obs"
              else if ¬ Annot.colExists t ik then
                .error "instance_key not present in table.obs"
              else if Annot.symmetryHolds t rk region then
                .ok { t with attrs := some { attrs with region := region } }
              else
                .error "values in region_key column not in region" := by
          unfold Annot.changeTableAnnotationTarget
          rw [hattrs]
          rfl
        rw [hred]
        rw [if_neg (by simp [hcolrk]), if_neg (by simp [hcolik])]
        constructor
        · constructor
          · rintro ⟨t', ht'⟩
            by_cases hall : Annot.symmetryHolds t rk region = true
            · rw [hsym] at hall
              simpa using hall
            · rw [if_neg hall] at ht'
              cases ht'
          · intro hall
            refine ⟨{ t with attrs := some { attrs with region := region } }, ?_⟩
            rw [if_pos (by rw [hsym]; simpa using hall)]
        · intro t' ht'
          by_cases hall : Annot.symmetryHolds t rk region = true
          · rw [if_pos hall] at ht'
            exact (Except.ok.inj ht').symm
          · rw [if_neg hall] at ht'
            cases ht'

/-- Witness for C6 at a concrete input: binding a two-row table with
region values "A", "B" to the region set {"A", "B"} succeeds. -/
theorem C6_annotation_symmetry_witness :
    ∃ t', Annot.setTableAnnotationTarget
      ⟨[("reg", ["A", "B"]), ("inst", ["0", "1"])], none⟩
      ["A", "B"] "reg" "inst" = .ok t' :=
  (C6_annotation_symmetry
    ⟨[("reg", ["A", "B"]), ("inst", ["0", "1"])], none⟩
    ["A", "B"] "reg" "inst" ["A", "B"] (by decide) (by decide)).1.mpr
    (by decide)

/-! ## Subsetting and table filtering (claim C7)

`SpatialData.subset` (lines 1702–1739) and `SpatialData._filter_tables`
(lines 656–717) with `by="elements"`.  A table is embedded as its
optional annotation metadata plus its region-key column (one region name
per row); `len(table)` is the row count.  The row-dropping helper
`_filter_table_by_elements` (spatialdata._core.query.relational_query) is
not among the source files and is modelled from the spec: rows whose
region-key value is not among the keep-set are dropped. -/

namespace Subset

structure FTable where
  attrs : Option Annot.TAttrs
  rows : List String
deriving DecidableEq, Repr

structure FContainer where
  elementNames : List String
  tables : List (String × FTable)
deriving DecidableEq, Repr

/-- Modelled from the spec: `_filter_table_by_elements`
(spatialdata._core.query.relational_query, not among the source files) —
rows whose region-key value is not among the names of the kept elements
are dropped. -/
def filterTableByElements (t : FTable) (keep : List String) : FTable :=
  { t with rows := t.rows.filter (fun v => v ∈ keep) }

/-- The per-table loop of `SpatialData._filter_tables` (lines 690–713):
orphan tables are kept whole when requested, force-kept tables are kept
whole, and the rest are row-filtered and dropped when emptied. -/
def filterTablesGo (namesTablesToKeep : List String)
    (includeOrphans : Bool) (keep : List String) :
    List (String × FTable) → List (String × FTable)
  | [] => []
  | (n, t) :: rest =>
    if includeOrphans ∧ t.attrs = none then
      (n, t) :: filterTablesGo namesTablesToKeep includeOrphans keep rest
    else if n ∈ namesTablesToKeep then
      (n, t) :: filterTablesGo namesTablesToKeep includeOrphans keep rest
    else
      if (filterTableByElements t keep).rows.length ≠ 0 then
        (n, filterTableByElements t keep)
          :: filterTablesGo namesTablesToKeep includeOrphans keep rest
      else filterTablesGo namesTablesToKeep includeOrphans keep rest

/-- `SpatialData._filter_tables` (lines 656–717) with `by="elements"`. -/
def filterTablesF (c : FContainer) (namesTablesToKeep : List String)
    (filterT includeOrphans : Bool) (keep : List String) :
    List (String × FTable) :=
  if filterT then filterTablesGo namesTablesToKeep includeOrphans keep c.tables
  else c.tables

/-- `SpatialData.subset` (lines 1702–1739): the requested names are split
into kept elements and force-kept tables, and the remaining tables are
filtered against the names of the kept ELEMENTS. -/
def subsetC (c : FContainer) (names : List String)
    (filterT includeOrphans : Bool) : FContainer :=
  { elementNames := c.elementNames.filter (fun n => n ∈ names),
    tables := filterTablesF c
      ((c.tables.map Prod.fst).filter (fun n => n ∈ names))
      filterT includeOrphans
      (c.elementNames.filter (fun n => n ∈ names)) }

/-- Shape of every entry the table-filter loop returns. -/
theorem filterTablesGo_mem (namesTablesToKeep : List String)
    (includeOrphans : Bool) (keep : List String) :
    ∀ (ts : List (String × FTable)) (p : String × FTable),
      p ∈ filterTablesGo namesTablesToKeep includeOrphans keep ts →
      (includeOrphans = true ∧ p.2.attrs = none ∧ p ∈ ts) ∨
      (p.1 ∈ namesTablesToKeep ∧ p ∈ ts) ∨
      (∃ t0, (p.1, t0) ∈ ts ∧ p.2 = filterTableByElements t0 keep ∧
        p.2.rows.length ≠ 0) := by
  intro ts
  induction ts with
  | nil => intro p hp; cases hp
  | cons e rest ih =>
    intro p hp
    obtain ⟨n, t⟩ := e
    have hstep : ∀ (q : String × FTable),
        q ∈ filterTablesGo namesTablesToKeep includeOrphans keep rest →
        (includeOrphans = true ∧ q.2.attrs = none ∧ q ∈ (n, t) :: rest) ∨
        (q.1 ∈ namesTablesToKeep ∧ q ∈ (n, t) :: rest) ∨
        (∃ t0, (q.1, t0) ∈ (n, t) :: rest ∧ q.2 = filterTableByElements t0 keep ∧
          q.2.rows.length ≠ 0) := by
      intro q hq
      rcases ih q hq with h | h | ⟨t0, h1, h2, h3⟩
      · exact Or.inl ⟨h.1, h.2.1, List.mem_cons_of_mem _ h.2.2⟩
      · exact Or.inr (Or.inl ⟨h.1, List.mem_cons_of_mem _ h.2⟩)
      · exact Or.inr (Or.inr ⟨t0, List.mem_cons_of_mem _ h1, h2, h3⟩)
    rw [filterTablesGo] at hp
    by_cases ho : includeOrphans = true ∧ t.attrs = none
    · rw [if_pos ho] at hp
      rcases List.mem_cons.mp hp with hp | hp
      · subst hp
        exact Or.inl ⟨ho.1, ho.2, List.mem_cons_self _ _⟩
      · exact hstep p hp
    · rw [if_neg ho] at hp
      by_cases hk : n ∈ namesTablesToKeep
      · rw [if_pos hk] at hp
        rcases List.mem_cons.mp hp with hp | hp
        · subst hp
          exact Or.inr (Or.inl ⟨hk, List.mem_cons_self _ _⟩)
        · exact hstep p hp
      · rw [if_neg hk] at hp
        by_cases hz : (filterTableByElements t keep).rows.length ≠ 0
        · rw [if_pos hz] at hp
          rcases List.mem_cons.mp hp with hp | hp
          · subst hp
            exact Or.inr (Or.inr ⟨t, List.mem_cons_self _ _, rfl, hz⟩)
          · exact hstep p hp
        · rw [if_neg hz] at hp
          exact hstep p hp

/-- Orphan tables are retained whole when requested. -/
theorem filterTablesGo_orphan (namesTablesToKeep : List String)
    (keep : List String) :
    ∀ (ts : List (String × FTable)) (p : String × FTable),
      p ∈ ts → p.2.attrs = none →
      p ∈ filterTablesGo namesTablesToKeep true keep ts := by
  intro ts
  induction ts with
  | nil => intro p hp; cases hp
  | cons e rest ih =>
    intro p hp horph
    obtain ⟨n, t⟩ := e
    rw [filterTablesGo]
    rcases List.mem_cons.mp hp with hp | hp
    · subst hp
      rw [if_pos ⟨rfl, horph⟩]
      exact List.mem_cons_self _ _
    · by_cases ho : (true : Bool) = true ∧ t.attrs = none
      · rw [if_pos ho]
        exact List.mem_cons_of_mem _ (ih p hp horph)
      · rw [if_neg ho]
        by_cases hk : n ∈ namesTablesToKeep
        · rw [if_pos hk]
          exact List.mem_cons_of_mem _ (ih p hp horph)
        · rw [if_neg hk]
          by_cases hz : (filterTableByElements t keep).rows.length ≠ 0
          · rw [if_pos hz]
            exact List.mem_cons_of_mem _ (ih p hp horph)
          · rw [if_neg hz]
            exact ih p hp horph

end Subset

/-- C7.  Subset table consistency: with `filter_tables=True`, every
returned table that is annotated and not force-kept (its name is not in
the requested name set) has all region-key values within the requested
set and is non-empty (a table filtered to zero rows is dropped); with
`include_orphan_tables=True`, every table with no annotation metadata is
retained unfiltered regardless of the requested set. -/
theorem C7_subset_table_consistency (c : Subset.FContainer)
    (S : List String) (orph : Bool) :
    (∀ p ∈ (Subset.subsetC c S true orph).tables,
      ¬ p.1 ∈ S → ¬ p.2.attrs = none →
      (∀ v ∈ p.2.rows, v ∈ S) ∧ p.2.rows.length ≠ 0) ∧
    (orph = true → ∀ p ∈ c.tables, p.2.attrs = none →
      p ∈ (Subset.subsetC c S true orph).tables) := by
  constructor
  · intro p hp hnotS hattrs
    have hmem := Subset.filterTablesGo_mem
      ((c.tables.map Prod.fst).filter (fun n => n ∈ S)) orph
      (c.elementNames.filter (fun n => n ∈ S)) c.tables p hp
    rcases hmem with h | h | ⟨t0, _, h2, h3⟩
    · exact absurd h.2.1 hattrs
    · have hfk : p.1 ∈ (c.tables.map Prod.fst).filter (fun n => n ∈ S) := h.1
      have := List.of_mem_filter hfk
      exact absurd (by simpa using this) hnotS
    · refine ⟨?_, h3⟩
      intro v hv
      rw [h2] at hv
      have hvk : v ∈ c.elementNames.filter (fun n => n ∈ S) := by
        have := List.of_mem_filter hv
        simpa using this
      have := List.of_mem_filter hvk
      simpa using this
  · intro horph p hp hattrs
    subst horph
    exact Subset.filterTablesGo_orphan _ _ c.tables p hp hattrs

/-- Witness for C7 at a concrete input: an orphan table is retained by
`subset` with `include_orphan_tables=True` even for an empty keep-set. -/
theorem C7_subset_table_consistency_witness :
    ("orphan", (⟨none, ["x"]⟩ : Subset.FTable))
      ∈ (Subset.subsetC ⟨["e"], [("orphan", ⟨none, ["x"]⟩)]⟩ [] true true).tables :=
  (C7_subset_table_consistency ⟨["e"], [("orphan", ⟨none, ["x"]⟩)]⟩ [] true).2
    rfl ("orphan", ⟨none, ["x"]⟩) (by decide) rfl

/-! ## The persistence guard (claim C8)

`SpatialData._validate_can_safely_write_to_path` (lines 923–965) and
`SpatialData.write` (lines 967–996).  Paths are embedded as component
lists; the disk state records which paths exist and which of those are
Zarr stores.  The helpers `_backed_elements_contained_in_path` and
`_is_subfolder` (spatialdata._io._utils) are not among the source files
and are modelled from the spec: containment means the target path is an
ancestor directory of a backing file, and subfolder means a proper
prefix.  In `write`, the guard runs before `parse_url(..., mode="w")`
creates or touches the store, so an error means zero writes. -/

namespace Guard

/-- Modelled from the spec: `p` is an ancestor directory of `q`. -/
def isAncestorOf (p q : List String) : Bool :=
  decide (p.length < q.length) && decide (q.take p.length = p)

/-- The observable disk state: existing paths that are Zarr stores and
existing paths that are something else. -/
structure Disk where
  zarrStores : List (List String)
  otherPaths : List (List String)
deriving DecidableEq, Repr

/-- The container state the guard consults: the current backing path and
the union of the Dask backing files of the in-memory elements (as
reported by the lazy-graph introspection collaborator). -/
structure GData where
  path : Option (List String)
  backingFiles : List (List String)
deriving DecidableEq, Repr

/-- `SpatialData._validate_can_safely_write_to_path` (lines 923–965):
the check sequence, returning the raised error message or `none`. -/
def validateCanSafelyWrite (disk : Disk) (sd : GData)
    (file_path : List String) (overwrite savingAnElement : Bool) :
    Option String :=
  if file_path ∈ disk.zarrStores ∨ file_path ∈ disk.otherPaths then
    if file_path ∉ disk.zarrStores then
      some "The target file path specified already exists, and it has been detected to not be a Zarr store."
    else if ¬ overwrite then
      some "The Zarr store already exists. Use overwrite=True to try overwriting the store."
    else if sd.backingFiles.any (fun f => isAncestorOf file_path f) then
      some "The file path specified is a parent directory of one or more files used for backing for one or more elements in the SpatialData object."
    else
      match sd.path with
      | some cur =>
        if isAncestorOf cur file_path || isAncestorOf file_path cur then
          if savingAnElement ∧ isAncestorOf cur file_path then
            some "Currently, overwriting existing elements is not supported."
          else
            some "The file path specified either contains either is contained in the one used for backing."
        else none
      | none => none
  else none

/-- `SpatialData.write` (lines 967–996): the guard runs first; only when
it passes does the store get created/overwritten, the elements written,
and the backing path updated.  The returned triple is the disk state, the
container state, and the raised error (if any). -/
def write (disk : Disk) (sd : GData) (file_path : List String)
    (overwrite : Bool) : Disk × GData × Option String :=
  match validateCanSafelyWrite disk sd file_path overwrite false with
  | some e => (disk, sd, some e)
  | none =>
    ({ disk with zarrStores :=
        if file_path ∈ disk.zarrStores then disk.zarrStores
        else file_path :: disk.zarrStores },
     { sd with path := some file_path },
     none)

end Guard

/-- C8.  Guard rejects destructive overwrite: when the target path is an
existing Zarr store and is an ancestor directory of some backing file of
an in-memory element, `write(path, overwrite=True)` raises the
would-orphan-backing-data error, and — the guard running before
`parse_url(mode="w")` — the disk state and the container state are
exactly as before: zero writes are performed. -/
theorem C8_guard_rejects_destructive_overwrite (disk : Guard.Disk)
    (sd : Guard.GData) (file_path : List String)
    (hstore : file_path ∈ disk.zarrStores)
    (hback : ∃ f ∈ sd.backingFiles, Guard.isAncestorOf file_path f = true) :
    Guard.write disk sd file_path true
      = (disk, sd,
         some "The file path specified is a parent directory of one or more files used for backing for one or more elements in the SpatialData object.") := by
  have hval : Guard.validateCanSafelyWrite disk sd file_path true false
      = some "The file path specified is a parent directory of one or more files used for backing for one or more elements in the SpatialData object." := by
    unfold Guard.validateCanSafelyWrite
    rw [if_pos (Or.inl hstore), if_neg (by simpa using hstore),
      if_neg (by simp)]
    rw [if_pos]
    rw [List.any_eq_true]
    obtain ⟨f, hf, ha⟩ := hback
    exact ⟨f, hf, ha⟩
  unfold Guard.write
  rw [hval]

/-- Witness for C8 at a concrete input: the store at `["data", "out"]`
exists, an element is backed by `["data", "out", "points", "p", "f.parquet"]`,
and the overwrite is rejected with no state change. -/
theorem C8_guard_rejects_destructive_overwrite_witness :
    Guard.write ⟨[["data", "out"]], []⟩
      ⟨none, [["data", "out", "points", "p", "f.parquet"]]⟩
      ["data", "out"] true
      = (⟨[["data", "out"]], []⟩,
         ⟨none, [["data", "out", "points", "p", "f.parquet"]]⟩,
         some "The file path specified is a parent directory of one or more files used for backing for one or more elements in the SpatialData object.") :=
  C8_guard_rejects_destructive_overwrite ⟨[["data", "out"]], []⟩
    ⟨none, [["data", "out", "points", "p", "f.parquet"]]⟩
    ["data", "out"] (by decide)
    ⟨["data", "out", "points", "p", "f.parquet"], by decide, by decide⟩

/-! ## Write/read round trip of the store layout (claim C1)

`SpatialData.write` (lines 967–996) writes every element through
`_write_element` (lines 998–1031) into the top-level group named after
its element type — `"images"`, `"labels"`, `"points"`, `"shapes"`,
`"tables"` — creating each group when its first element is written.
`read_zarr` (io_zarr.py lines 56–174) reads the groups `"images"`,
`"labels"`, `"points"`, `"shapes"` and the legacy singular group
`"table"`: the loop over the `"table"` subgroups keeps only the last
table read, and the resulting `SpatialData(..., table=table)` call stores
it (if any) under the fixed name `"table"`.  The group `"tables"` that
`write` produces is never consulted.  The store is embedded as the
mapping from top-level group name to the element names inside it. -/

namespace RW

structure CData where
  images : List String
  labels : List String
  points : List String
  shapes : List String
  tables : List String
deriving DecidableEq, Repr

/-- The top-level layout `SpatialData.write` produces on a fresh store:
one group per element kind holding the kind's element names; a group
exists exactly when an element of its kind was written. -/
def writeLayout (c : CData) : List (String × List String) :=
  (if c.images.isEmpty then [] else [("images", c.images)]) ++
  (if c.labels.isEmpty then [] else [("labels", c.labels)]) ++
  (if c.points.isEmpty then [] else [("points", c.points)]) ++
  (if c.shapes.isEmpty then [] else [("shapes", c.shapes)]) ++
  (if c.tables.isEmpty then [] else [("tables", c.tables)])

/-- `read_zarr` with the default selection: the four spatial kinds are
read from their groups; tables are read from the legacy group `"table"`
only, and at most one table — under the fixed name `"table"` — survives
the loop. -/
def readZarr (store : List (String × List String)) : CData :=
  { images := (PyDict.get? store "images").getD [],
    labels := (PyDict.get? store "labels").getD [],
    points := (PyDict.get? store "points").getD [],
    shapes := (PyDict.get? store "shapes").getD [],
    tables :=
      match PyDict.get? store "table" with
      | none => []
      | some names => if names.isEmpty then [] else ["table"] }

end RW

/-- C1, evaluated at the failing input: a container holding the image
"img1" and the table "my_table" is written to a fresh store and read
back; the image survives but the table set comes back empty, because
`write` stores tables under the top-level group `"tables"` while
`read_zarr` reads only the legacy group `"table"`.  The round-trip
property of the claim fails for every container holding a table. -/
theorem C1_roundtrip_loses_tables :
    RW.readZarr (RW.writeLayout ⟨["img1"], [], [], [], ["my_table"]⟩)
      = ⟨["img1"], [], [], [], []⟩ ∧
    (⟨["img1"], [], [], [], ["my_table"]⟩ : RW.CData).tables = ["my_table"] ∧
    PyDict.get? (RW.writeLayout ⟨["img1"], [], [], [], ["my_table"]⟩) "tables"
      = some ["my_table"] ∧
    PyDict.get? (RW.writeLayout ⟨["img1"], [], [], [], ["my_table"]⟩) "table"
      = none :=
  ⟨rfl, rfl, rfl, rfl⟩
